import Mathlib

/-!
Verification of the network connection inventory engine.

This file gives a shallow embedding of the JavaScript sources:
  * `lib/parsers.js`   — `splitHostPort`, `parseWindowsNetstat`, `parseLinuxSS`, `parseLsof`
  * `js/syslib_ports.js` — the streaming `scanPorts` engine
  * `lib/owners.js`    — the Linux owner resolver (`buildUidNameMap`, `pidToUid`, `ownersLinux`)

JavaScript strings are modelled as Lean `String`/`List Char`; JavaScript numbers
appearing in records are modelled as exact rationals (`ℚ`), with `Option ℚ` where
`none` stands for a non-finite value (`NaN` or `±Infinity`) or for `null`.
Double rounding and overflow of huge decimal literals to `Infinity` are not
modelled: values are exact rationals.  All regular expressions of the source are
compiled by hand into deterministic matchers; the source patterns involved are
simple enough (character classes never overlapping with what follows them) that
greedy maximal munch is the unique match.
-/

set_option maxHeartbeats 1000000
set_option maxRecDepth 10000

namespace NetScan

/-! ## Character classes and elementary string operations (JS semantics) -/

/-- JavaScript whitespace (`\s`), restricted to the code points that can occur in
command output: space, tab, LF, CR, vertical tab, form feed, NBSP. -/
def isWS (c : Char) : Bool :=
  c = ' ' || c = '\t' || c = '\n' || c = '\r' || c = '\x0b' || c = '\x0c' || c = '\u00A0'

/-- ASCII decimal digit (`\d`). -/
def isDigit (c : Char) : Bool := '0' ≤ c && c ≤ '9'

/-- ASCII word character (`\w`), the class used by the `\b` assertion in JS regexes. -/
def isWordChar (c : Char) : Bool :=
  ('A' ≤ c && c ≤ 'Z') || ('a' ≤ c && c ≤ 'z') || ('0' ≤ c && c ≤ '9') || c = '_'

/-- JavaScript `String.prototype.toUpperCase` on one character, covering ASCII and
the Latin-1 letters (à–þ except ÷) that occur in French netstat output. -/
def jsToUpper (c : Char) : Char :=
  if 'a' ≤ c && c ≤ 'z' then Char.ofNat (c.toNat - 32)
  else if 0xE0 ≤ c.toNat && c.toNat ≤ 0xFE && c.toNat ≠ 0xF7 then Char.ofNat (c.toNat - 32)
  else c

def jsToUpperL (l : List Char) : List Char := l.map jsToUpper

/-- JavaScript `trim()`. -/
def jsTrim (l : List Char) : List Char :=
  ((l.dropWhile isWS).reverse.dropWhile isWS).reverse

/-- Numeric value of a list of decimal digits (most significant first). -/
def natOfDigits (l : List Char) : Nat :=
  l.foldl (fun a c => 10 * a + (c.toNat - 48)) 0

/-- Value of a hexadecimal digit, if any. -/
def hexDigitVal (c : Char) : Option Nat :=
  if '0' ≤ c && c ≤ '9' then some (c.toNat - 48)
  else if 'a' ≤ c && c ≤ 'f' then some (c.toNat - 87)
  else if 'A' ≤ c && c ≤ 'F' then some (c.toNat - 55)
  else none

def natOfBase (b : Nat) (vals : List Nat) : Nat :=
  vals.foldl (fun a v => b * a + v) 0

/-! ## JavaScript numeric conversion -/

/-- Exponent suffix of a JS decimal literal: empty, or `e`/`E` with optional sign
and one or more digits reaching the end of the string.  `none` models NaN. -/
def expSuffix : List Char → Option Int
  | [] => some 0
  | 'e' :: r => expSuffixDigits r
  | 'E' :: r => expSuffixDigits r
  | _ => none
where
  expSuffixDigits : List Char → Option Int
  | '+' :: r => if r ≠ [] && r.all isDigit then some ((natOfDigits r : Int)) else none
  | '-' :: r => if r ≠ [] && r.all isDigit then some (-(natOfDigits r : Int)) else none
  | r => if r ≠ [] && r.all isDigit then some ((natOfDigits r : Int)) else none

/-- Decimal part of `Number(string)` after the optional sign (`neg` records a
leading minus): either `Infinity` (non-finite, hence `none`) or
`digits [. digits] [e[±]digits]` with at least one digit in the integer or
fractional part.  `none` models NaN / non-finite. -/
def decLit (neg : Bool) (t : List Char) : Option ℚ :=
  if t = "Infinity".data then none
  else
    let ip := t.takeWhile isDigit
    let r1 := t.dropWhile isDigit
    let fp := match r1 with | '.' :: r => r.takeWhile isDigit | _ => []
    let r2 := match r1 with | '.' :: r => r.dropWhile isDigit | _ => r1
    if ip = [] && fp = [] then none
    else
      match expSuffix r2 with
      | none => none
      | some e =>
        let m : Int := (if neg then -1 else 1) *
          ((natOfDigits ip * 10 ^ fp.length + natOfDigits fp : Nat) : Int)
        if 0 ≤ e then
          some (mkRat (m * (10 : Int) ^ e.toNat) ((10 : Nat) ^ fp.length))
        else
          some (mkRat m ((10 : Nat) ^ (fp.length + e.natAbs)))

/-- Hex / octal / binary integer literal body (after `0x`/`0o`/`0b`). -/
def radixLit (b : Nat) (ok : Char → Option Nat) (t : List Char) : Option ℚ :=
  if t = [] then none
  else
    let vs := t.map ok
    if vs.all Option.isSome then
      some ((natOfBase b (vs.map (·.getD 0)) : ℚ))
    else none

def octDigitVal (c : Char) : Option Nat :=
  if '0' ≤ c && c ≤ '7' then some (c.toNat - 48) else none

def binDigitVal (c : Char) : Option Nat :=
  if c = '0' || c = '1' then some (c.toNat - 48) else none

/-- JavaScript `Number(string)` restricted to finite results: `some q` when the
string converts to the finite value `q`, `none` when it converts to NaN or
`±Infinity` (the sources always follow the conversion with a finiteness test or
a falsiness test, so the two non-finite outcomes need not be distinguished,
except for `Number('Infinity')` as a pid which no claim exercises). -/
def jsNumber (l : List Char) : Option ℚ :=
  let t := jsTrim l
  if t = [] then some 0
  else if t.head? = some '+' then decLit false (t.drop 1)
  else if t.head? = some '-' then decLit true (t.drop 1)
  else if t.head? = some '0' && (t.get? 1 = some 'x' || t.get? 1 = some 'X') then
    radixLit 16 hexDigitVal (t.drop 2)
  else if t.head? = some '0' && (t.get? 1 = some 'o' || t.get? 1 = some 'O') then
    radixLit 8 octDigitVal (t.drop 2)
  else if t.head? = some '0' && (t.get? 1 = some 'b' || t.get? 1 = some 'B') then
    radixLit 2 binDigitVal (t.drop 2)
  else decLit false t

/-- JavaScript `parseInt(s, 10)`: skip leading whitespace, optional sign, then the
maximal prefix of decimal digits; `none` models NaN. -/
def jsParseInt10 (l : List Char) : Option Int :=
  let t := l.dropWhile isWS
  match t with
  | '+' :: r => if r.takeWhile isDigit = [] then none
                else some ((natOfDigits (r.takeWhile isDigit) : Int))
  | '-' :: r => if r.takeWhile isDigit = [] then none
                else some (-(natOfDigits (r.takeWhile isDigit) : Int))
  | _ => if t.takeWhile isDigit = [] then none
         else some ((natOfDigits (t.takeWhile isDigit) : Int))

/-! ## The Address Splitter of `lib/parsers.js` -/

structure HostPort where
  host : String
  port : Option ℚ
  deriving DecidableEq, Repr

/-- Matcher for the anchored regex `^\[([^\]]+)\]:(\d+)$` of `splitHostPort` in
`lib/parsers.js`.  `[^\]]+` cannot cross a `]`, so it reaches exactly to the
first `]`; the remainder must be `:` followed by one or more digits. -/
def matchBracketNS (l : List Char) : Option (List Char × List Char) :=
  if l.head? = some '[' then
    let rest := l.drop 1
    let inner := rest.takeWhile (fun c => c ≠ ']')
    let after := rest.dropWhile (fun c => c ≠ ']')
    if after.head? = some ']' && after.get? 1 = some ':' then
      let ds := after.drop 2
      if inner ≠ [] && ds ≠ [] && ds.all isDigit then some (inner, ds) else none
    else none
  else none

/-- Index of the first occurrence of `c` (JS `indexOf`), `none` for `-1`. -/
def firstIdxOf (c : Char) (l : List Char) : Option Nat :=
  match l with
  | [] => none
  | a :: r => if a = c then some 0 else (firstIdxOf c r).map (· + 1)

/-- Index of the last occurrence of `c` (JS `lastIndexOf`), `none` for `-1`. -/
def lastIdxOf (c : Char) (l : List Char) : Option Nat :=
  match l with
  | [] => none
  | a :: r =>
    match lastIdxOf c r with
    | some k => some (k + 1)
    | none => if a = c then some 0 else none

/-- `splitHostPort` from `lib/parsers.js`:
bracketed IPv6, then single-colon split with finite-number check, then the
(unreachable) `*:*` case, then the fallback. -/
def splitHostPort (addr : String) : HostPort :=
  let l := addr.data
  if l = [] then { host := addr, port := none }
  else
    match matchBracketNS l with
    | some (inner, ds) => { host := String.mk inner, port := some ((natOfDigits ds : ℚ)) }
    | none =>
      match lastIdxOf ':' l with
      | some k =>
        if firstIdxOf ':' l = some k then
          { host := String.mk (l.take k), port := jsNumber (l.drop (k + 1)) }
        else if addr = "*:*" then { host := "*", port := none }
        else { host := addr, port := none }
      | none =>
        if addr = "*:*" then { host := "*", port := none }
        else { host := addr, port := none }

/-! ## Line and field splitting -/

/-- Prepend a character to the first piece of a split result. -/
def consHead (c : Char) : List (List Char) → List (List Char)
  | [] => [[c]]
  | t :: ts => (c :: t) :: ts

/-- JavaScript `split(/\r?\n/)`: break at each `\n`, consuming one directly
preceding `\r` with it.  A lone `\r` stays in the text. -/
def splitCRLF : List Char → List (List Char)
  | [] => [[]]
  | '\n' :: rest => [] :: splitCRLF rest
  | '\r' :: '\n' :: rest => [] :: splitCRLF rest
  | '\r' :: rest => consHead '\r' (splitCRLF rest)
  | c :: rest => consHead c (splitCRLF rest)

/-- Worker for `collapseWS`; `prevWS` records whether the previous character was
whitespace (in which case the run already emitted its single space). -/
def collapseGo (prevWS : Bool) : List Char → List Char
  | [] => []
  | c :: rest =>
    if isWS c then
      if prevWS then collapseGo true rest else ' ' :: collapseGo true rest
    else c :: collapseGo false rest

/-- JavaScript `replace(/\s+/g, ' ')`: each maximal whitespace run becomes one space. -/
def collapseWS (l : List Char) : List Char := collapseGo false l

/-- JavaScript `split(' ')`. -/
def splitOnSpace : List Char → List (List Char)
  | [] => [[]]
  | c :: rest =>
    if c = ' ' then [] :: splitOnSpace rest
    else consHead c (splitOnSpace rest)

/-- Worker for `splitWSruns`; `prevWS` records whether we are inside a
whitespace separator run. -/
def splitWSGo (prevWS : Bool) : List Char → List (List Char)
  | [] => [[]]
  | c :: rest =>
    if isWS c then
      if prevWS then splitWSGo true rest else [] :: splitWSGo true rest
    else consHead c (splitWSGo false rest)

/-- JavaScript `split(/\s+/)`: each maximal whitespace run is one separator. -/
def splitWSruns (l : List Char) : List (List Char) := splitWSGo false l

/-! ## Literal-pattern search/replace machinery for the netstat normalizer

The French → English rules of `parseWindowsNetstat` are case-insensitive
literal patterns (with one character class `[ÉE]`), optionally anchored at the
start (`^Connexions actives`) or framed by `\b` word boundaries.  Case
insensitivity is realised by folding the subject character with `jsToUpper` and
listing the uppercase alternatives of each pattern position. -/

/-- Does the uppercase-folded subject start with the given pattern positions? -/
def patHere (elems : List (List Char)) (l : List Char) : Bool :=
  match elems, l with
  | [], _ => true
  | e :: es, c :: r => e.contains (jsToUpper c) && patHere es r
  | _ :: _, [] => false

/-- The JS `\b` assertion between two (optional) neighbouring characters. -/
def wordB (a b : Option Char) : Bool :=
  (match a with | some c => isWordChar c | none => false) !=
  (match b with | some c => isWordChar c | none => false)

/-- Replace the first (leftmost) occurrence of the pattern, honouring `\b`
boundaries on both sides when `bdry` is set.  `prev` is the character before
the current position. -/
def replAt (elems : List (List Char)) (rep : List Char) (bdry : Bool)
    (prev : Option Char) (l : List Char) : List Char :=
  let n := elems.length
  if patHere elems l &&
      (!bdry || (wordB prev (l.get? 0) && wordB (l.get? (n - 1)) (l.get? n))) then
    rep ++ l.drop n
  else
    match l with
    | [] => []
    | c :: r => c :: replAt elems rep bdry (some c) r

/-- One `line.replace(pat, rep)` step: anchored patterns only try position 0. -/
def jsReplacePat (anchored bdry : Bool) (elems : List (List Char)) (rep : String)
    (l : List Char) : List Char :=
  if anchored then
    if patHere elems l then rep.data ++ l.drop elems.length else l
  else
    replAt elems rep.data bdry none l

/-- Pattern positions of a case-insensitive literal. -/
def lit (s : String) : List (List Char) := s.data.map (fun c => [jsToUpper c])

/-- The seven `replace` calls normalizing French netstat headers/states
(`lib/parsers.js`, `parseWindowsNetstat`). -/
def normalizeNetstatLine (l : List Char) : List Char :=
  let l1 := jsReplacePat true false (lit "Connexions actives") "Active Connections" l
  let l2 := jsReplacePat false true (lit "Adresse locale") "Local Address" l1
  let l3 := jsReplacePat false true (lit "Adresse distante") "Foreign Address" l2
  let l4 := jsReplacePat false true ([['É', 'E']] ++ lit "tat") "State" l3
  let l5 := jsReplacePat false true (lit "ÉCOUTE") "LISTENING" l4
  let l6 := jsReplacePat false true (lit "ECOUTE") "LISTENING" l5
  jsReplacePat false true (lit "FERM" ++ [['É', 'E']] ++ lit "E") "CLOSED" l6

/-- Unanchored case-insensitive word search, i.e. the test `/\b W \b/i.test(l)`
for a literal word `w` (given uppercase). -/
def findWordCI (w : List Char) (prev : Option Char) (l : List Char) : Bool :=
  (patHere (w.map (fun c => [c])) l &&
    wordB prev (l.get? 0) && wordB (l.get? (w.length - 1)) (l.get? w.length))
  || match l with
     | [] => false
     | c :: r => findWordCI w (some c) r

/-! ## The Windows netstat extractor (`parseWindowsNetstat`) -/

structure ConnRecord where
  key : String
  protocol : String
  localAddress : String
  localPort : Option ℚ
  remoteAddress : String
  remotePort : Option ℚ
  state : String
  pid : Option ℚ
  processName : Option String
  owner : Option String
  deriving DecidableEq, Repr

/-- JavaScript `Number(tok) || null`: `null` when the conversion is NaN or `0`. -/
def pidOrNull (tok : List Char) : Option ℚ :=
  match jsNumber tok with
  | none => none
  | some q => if q = 0 then none else some q

/-- The record key template `` `${proto}|${local}|${remote}|${pid}` ``. -/
def mkKey (protoT localT remoteT pidT : List Char) : String :=
  String.mk (protoT ++ '|' :: localT ++ '|' :: remoteT ++ '|' :: pidT)

/-- Body of the per-line loop of `parseWindowsNetstat`: collapse whitespace,
split on spaces, then build a TCP record (5 fields) or a UDP record (4 fields),
or skip the line. -/
def netstatLineToRec (l : List Char) : Option ConnRecord :=
  let parts := splitOnSpace (collapseWS l)
  let proto := jsToUpperL ((parts.get? 0).getD [])
  if proto = "TCP".data && decide (5 ≤ parts.length) then
    let localT := (parts.get? 1).getD []
    let remoteT := (parts.get? 2).getD []
    let stT := (parts.get? 3).getD []
    let pidT := (parts.get? 4).getD []
    some {
      key := mkKey proto localT remoteT pidT
      protocol := "TCP"
      localAddress := (splitHostPort (String.mk localT)).host
      localPort := (splitHostPort (String.mk localT)).port
      remoteAddress := (splitHostPort (String.mk remoteT)).host
      remotePort := (splitHostPort (String.mk remoteT)).port
      state := String.mk (jsToUpperL stT)
      pid := pidOrNull pidT
      processName := none
      owner := none }
  else if proto = "UDP".data && decide (4 ≤ parts.length) then
    let localT := (parts.get? 1).getD []
    let remoteT := (parts.get? 2).getD []
    let pidT := (parts.get? 3).getD []
    some {
      key := mkKey proto localT remoteT pidT
      protocol := "UDP"
      localAddress := (splitHostPort (String.mk localT)).host
      localPort := (splitHostPort (String.mk localT)).port
      remoteAddress := (splitHostPort (String.mk remoteT)).host
      remotePort := (splitHostPort (String.mk remoteT)).port
      state := "UNSPECIFIED"
      pid := pidOrNull pidT
      processName := none
      owner := none }
  else none

/-- `parseWindowsNetstat` from `lib/parsers.js`. -/
def parseWindowsNetstat (text : String) : List ConnRecord :=
  let lines := ((splitCRLF text.data).map jsTrim).filter (fun l => l ≠ [])
  let normalized := lines.map normalizeNetstatLine
  let dataLines := normalized.filter
    (fun l => findWordCI "TCP".data none l || findWordCI "UDP".data none l)
  dataLines.filterMap netstatLineToRec

/-! ## The Linux ss extractor (`parseLinuxSS`) -/

/-- Decimal rendering of a natural number (JS number-to-string in a template). -/
def natDecGo (fuel n : Nat) (acc : List Char) : List Char :=
  match fuel with
  | 0 => acc
  | fuel + 1 =>
    if n < 10 then Char.ofNat (48 + n) :: acc
    else natDecGo fuel (n / 10) (Char.ofNat (48 + n % 10) :: acc)

def natDec (n : Nat) : List Char := natDecGo (n + 1) n []

/-- Maximal munch for `(\S+)`: fails on whitespace or end of input. -/
def tok1 (l : List Char) : Option (List Char × List Char) :=
  let t := l.takeWhile (fun c => !isWS c)
  if t = [] then none else some (t, l.dropWhile (fun c => !isWS c))

/-- Maximal munch for `\s+`: fails unless at least one whitespace character. -/
def ws1 (l : List Char) : Option (List Char) :=
  match l with
  | c :: r => if isWS c then some (r.dropWhile isWS) else none
  | [] => none

/-- Test for the header row `/^\s*Netid\s+/i`. -/
def isNetidHeader (l : List Char) : Bool :=
  let r := l.dropWhile isWS
  patHere (lit "Netid") r && (match r.get? 5 with | some c => isWS c | none => false)

/-- Largest index `j ≥ 1` such that positions `j, j+1` hold `))`: the greedy
match of `(.+)\)\)` keeps everything before the last `))`. -/
def lastDoubleParen (u : List Char) : Option Nat :=
  ((List.range u.length).filter
    (fun j => decide (1 ≤ j) && u.get? j = some ')' && u.get? (j + 1) = some ')')).getLast?

/-- The optional suffix `(?:\s+users:\(\((.+)\)\))?` of the ss line pattern. -/
def ssUsersOpt (r : List Char) : Option (List Char) :=
  match ws1 r with
  | none => none
  | some r1 =>
    if patHere (lit "users:((") r1 then
      let u := r1.drop 8
      match lastDoubleParen u with
      | some j => some (u.take j)
      | none => none
    else none

/-- Matcher for `^(tcp|udp)\s+(\S+)\s+\S+\s+\S+\s+(\S+)\s+(\S+)(?:\s+users:\(\((.+)\)\))?/i`:
returns the uppercased protocol, the state token, local and remote address
tokens, and the optional users blob.  All quantified pieces are maximal-munch;
`\S` and `\s` are disjoint so no backtracking can produce a different match. -/
def ssMatch (l : List Char) :
    Option (List Char × List Char × List Char × List Char × Option (List Char)) :=
  let p3 := jsToUpperL (l.take 3)
  if p3 = "TCP".data || p3 = "UDP".data then
    match ws1 (l.drop 3) with
    | none => none
    | some r1 =>
      match tok1 r1 with
      | none => none
      | some (st, r2) =>
        match ws1 r2 with
        | none => none
        | some r3 =>
          match tok1 r3 with
          | none => none
          | some (_, r4) =>
            match ws1 r4 with
            | none => none
            | some r5 =>
              match tok1 r5 with
              | none => none
              | some (_, r6) =>
                match ws1 r6 with
                | none => none
                | some r7 =>
                  match tok1 r7 with
                  | none => none
                  | some (lo, r8) =>
                    match ws1 r8 with
                    | none => none
                    | some r9 =>
                      match tok1 r9 with
                      | none => none
                      | some (re, r10) => some (p3, st, lo, re, ssUsersOpt r10)
  else none

/-- Leftmost match of the case-sensitive pattern `"([^"]+)"[,)]\s*pid=(\d+)`
inside the users blob, returning process name and pid. -/
def usersPidGo : List Char → Option (List Char × Nat)
  | [] => none
  | '"' :: r =>
    (let nm := r.takeWhile (fun c => c ≠ '"')
     if nm = [] then none
     else
       match r.drop nm.length with
       | '"' :: s :: rest =>
         if s = ',' || s = ')' then
           let r2 := rest.dropWhile isWS
           if "pid=".data.isPrefixOf r2 then
             let ds := (r2.drop 4).takeWhile isDigit
             if ds = [] then none else some (nm, natOfDigits ds)
           else none
         else none
       | _ => none)
    |>.orElse (fun _ => usersPidGo r)
  | _ :: r => usersPidGo r

/-- Body of the per-line loop of `parseLinuxSS`. -/
def ssLineToRec (l : List Char) : Option ConnRecord :=
  match ssMatch l with
  | none => none
  | some (p3, st, lo, re, users) =>
    let pm := usersPidGo (users.getD [])
    some {
      key := String.mk (p3 ++ '|' :: lo ++ '|' :: re ++ '|' ::
                        (match pm with | some x => natDec x.2 | none => []))
      protocol := String.mk p3
      localAddress := (splitHostPort (String.mk lo)).host
      localPort := (splitHostPort (String.mk lo)).port
      remoteAddress := (splitHostPort (String.mk re)).host
      remotePort := (splitHostPort (String.mk re)).port
      state := String.mk (jsToUpperL st)
      pid := pm.map (fun x => ((x.2 : ℚ)))
      processName := pm.map (fun x => String.mk x.1)
      owner := none }

/-- `parseLinuxSS` from `lib/parsers.js`. -/
def parseLinuxSS (text : String) : List ConnRecord :=
  let lines := (splitCRLF text.data).filter (fun l => l ≠ [])
  let data := lines.filter (fun l => !isNetidHeader l)
  data.filterMap ssLineToRec

/-! ## The lsof extractor (`parseLsof`) -/

/-- Search for `/\b(TCP|UDP)\b/i`, returning the matched three characters. -/
def findProtoCI (prev : Option Char) (l : List Char) : Option (List Char) :=
  if (patHere (lit "TCP") l || patHere (lit "UDP") l) &&
      wordB prev (l.get? 0) && wordB (l.get? 2) (l.get? 3) then
    some (l.take 3)
  else
    match l with
    | [] => none
    | c :: r => findProtoCI (some c) r

/-- Index of the first occurrence of a literal substring (JS `indexOf`). -/
def idxOfSub (pat : List Char) : List Char → Option Nat
  | [] => if pat = [] then some 0 else none
  | l@(_ :: r) => if pat.isPrefixOf l then some 0 else (idxOfSub pat r).map (· + 1)

/-- Attempt of `\(([^)]+)\)\s*$` with the opening parenthesis already consumed:
`[^)]+` reaches exactly to the next `)`, and the rest must be whitespace. -/
def parenStateHere (r : List Char) : Option (List Char) :=
  let inner := r.takeWhile (fun c => c ≠ ')')
  let rest := r.dropWhile (fun c => c ≠ ')')
  if inner ≠ [] && rest.head? = some ')' && (rest.drop 1).all isWS then some inner
  else none

/-- Leftmost match of `/\(([^)]+)\)\s*$/`: returns the index of the opening
parenthesis and the captured state. -/
def parenStateGo (i : Nat) : List Char → Option (Nat × List Char)
  | [] => none
  | c :: r =>
    if c = '(' then
      match parenStateHere r with
      | some inner => some (i, inner)
      | none => parenStateGo (i + 1) r
    else parenStateGo (i + 1) r

/-- Matcher for `^(\S+)\s+(\d+)\s+(\S+)`: the three leading fields.  The match
succeeds exactly when the second whitespace-delimited field is all digits
(backtracking inside `\S+`/`\s+`/`\d+` cannot produce any other match because
the classes are disjoint from their successors). -/
def lsofHead (l : List Char) : Option (List Char × Nat × List Char) :=
  match tok1 l with
  | none => none
  | some (t1, r1) =>
    match ws1 r1 with
    | none => none
    | some r2 =>
      match tok1 r2 with
      | none => none
      | some (t2, r3) =>
        if t2.all isDigit then
          match ws1 r3 with
          | none => none
          | some r4 =>
            match tok1 r4 with
            | none => none
            | some (t3, _) => some (t1, natOfDigits t2, t3)
        else none

/-- Body of the per-line loop of `parseLsof`. -/
def lsofLineToRec (l : List Char) : Option ConnRecord :=
  match findProtoCI none l with
  | none => none
  | some m0 =>
    let protoU := jsToUpperL m0
    let headM := lsofHead l
    let afterP := jsTrim (l.drop (((idxOfSub m0 l).getD 0) + 3))
    let stM := parenStateGo 0 afterP
    let st : List Char :=
      match stM with
      | some x => jsToUpperL x.2
      | none => if protoU = "UDP".data then "UNSPECIFIED".data else "UNKNOWN".data
    let arrow : List Char :=
      match stM with
      | some x => jsTrim (afterP.take x.1)
      | none => jsTrim afterP
    let lo : List Char :=
      match idxOfSub "->".data arrow with
      | some k => jsTrim (arrow.take k)
      | none => jsTrim arrow
    let re : List Char :=
      match idxOfSub "->".data arrow with
      | some k =>
        let rest := arrow.drop (k + 2)
        jsTrim (match idxOfSub "->".data rest with
                | some j => rest.take j
                | none => rest)
      | none => "*:*".data
    some {
      key := String.mk (protoU ++ '|' :: lo ++ '|' :: re ++ '|' ::
                        (match headM with | some h => natDec h.2.1 | none => []))
      protocol := String.mk protoU
      localAddress := (splitHostPort (String.mk lo)).host
      localPort := (splitHostPort (String.mk lo)).port
      remoteAddress := (splitHostPort (String.mk re)).host
      remotePort := (splitHostPort (String.mk re)).port
      state := String.mk st
      pid := headM.map (fun h => ((h.2.1 : ℚ)))
      processName := (tok1 l).map (fun t => String.mk t.1)
      owner := headM.map (fun h => String.mk h.2.2) }

/-- `parseLsof` from `lib/parsers.js`. -/
def parseLsof (text : String) : List ConnRecord :=
  let lines := (splitCRLF text.data).filter (fun l => l ≠ [])
  lines.filterMap lsofLineToRec

/-! ## The Streaming Scan Engine (`scanPorts` in `js/syslib_ports.js`) -/

structure PortEntry where
  protocol : String
  localAddress : String
  localPort : Option ℚ
  foreignAddress : String
  foreignPort : Option ℚ
  state : String
  pid : Option Int
  processName : String
  deriving DecidableEq, Repr

/-- Matcher for the greedy bracket pattern `^\[(.+)\]:(\d+)$` of the engine's
`splitHostPort`: the greedy `(.+)` reaches to the last `]:` that leaves a
non-empty all-digit tail; `.` does not match line terminators. -/
def matchBracketGreedy (l : List Char) : Option (List Char × List Char) :=
  match l with
  | '[' :: r =>
    match ((List.range r.length).filter (fun j =>
        decide (1 ≤ j) && r.get? j = some ']' && r.get? (j + 1) = some ':' &&
        (r.drop (j + 2)) ≠ [] && (r.drop (j + 2)).all isDigit &&
        (r.take j).all (fun c => c ≠ '\n' && c ≠ '\r'))).getLast? with
    | some j => some (r.take j, r.drop (j + 2))
    | none => none
  | _ => none

/-- `splitHostPort` from `js/syslib_ports.js` (NaN modelled as `none`; note this
variant has no single-colon requirement and no `*:*` case). -/
def splitHostPortS (addr : String) : HostPort :=
  let l := addr.data
  if l = [] then { host := "", port := none }
  else
    match matchBracketGreedy l with
    | some (inner, ds) => { host := String.mk inner, port := some ((natOfDigits ds : ℚ)) }
    | none =>
      match lastIdxOf ':' l with
      | none => { host := addr, port := none }
      | some k => { host := String.mk (l.take k), port := jsNumber (l.drop (k + 1)) }

/-- The engine's running state: leftover buffer, counters, entries pushed so
far, and the progress notifications emitted so far (in order). -/
structure ScanState where
  leftover : List Char
  parsedCount : Nat
  estimateTotal : Nat
  entries : List PortEntry
  events : List (Nat × Nat)
  deriving DecidableEq, Repr

def initState : ScanState :=
  { leftover := [], parsedCount := 0, estimateTotal := 200, entries := [], events := [] }

/-- Clamp of the accepted bound: `Math.min(65535, Math.max(1, Math.floor(maxPort)))`
(the argument is modelled as an integer, so `floor` is the identity and the
non-finite default of 65535 cannot arise). -/
def clampMaxPort (mp : Int) : Int := min 65535 (max 1 mp)

/-- The test `/^(TCP|UDP)\s+/i.test(line)`. -/
def protoPrefixTest (l : List Char) : Bool :=
  (jsToUpperL (l.take 3) = "TCP".data || jsToUpperL (l.take 3) = "UDP".data) &&
  (match l.get? 3 with | some c => isWS c | none => false)

/-- JavaScript `tok || dflt` on an optionally-present string token. -/
def jsOrTok (o : Option (List Char)) (d : List Char) : List Char :=
  match o with
  | some t => if t = [] then d else t
  | none => d

/-- Parsing body shared by the data handler and the end-of-stream flush: trim
the raw line, require the `TCP|UDP` prefix, split on whitespace, and push an
entry when the local port is finite and within the clamped bound.  `mp` is the
already-clamped bound. -/
def coreParse (mp : Int) (pidMap : Int → Option String) (st : ScanState)
    (raw : List Char) : ScanState :=
  let line := jsTrim raw
  if line = [] then st
  else if !protoPrefixTest line then st
  else
    let parts := splitWSruns line
    let protocol := jsToUpperL (jsOrTok (parts.get? 0) [])
    if protocol = "TCP".data && decide (5 ≤ parts.length) then
      let localT := jsOrTok (parts.get? 1) []
      let foreignT := jsOrTok (parts.get? 2) []
      let stateT := jsOrTok (parts.get? 3) []
      let pid := jsParseInt10 ((parts.get? 4).getD [])
      let hpl := splitHostPortS (String.mk localT)
      let hpf := splitHostPortS (String.mk foreignT)
      let entries :=
        match hpl.port with
        | some q =>
          if q ≤ (mp : ℚ) then
            st.entries ++ [{
              protocol := String.mk protocol
              localAddress := hpl.host
              localPort := hpl.port
              foreignAddress := hpf.host
              foreignPort := hpf.port
              state := String.mk stateT
              pid := pid
              processName := match pid with
                             | none => ""
                             | some p => (pidMap p).getD "" }]
          else st.entries
        | none => st.entries
      { st with parsedCount := st.parsedCount + 1, entries := entries }
    else if protocol = "UDP".data then
      let possiblePid := (parts.get? (parts.length - 1)).getD []
      let pid := jsParseInt10 possiblePid
      let localT := jsOrTok (parts.get? 1) []
      let foreignT := jsOrTok (parts.get? 2) "*:*".data
      let hpl := splitHostPortS (String.mk localT)
      let hpf := splitHostPortS (String.mk foreignT)
      let entries :=
        match hpl.port with
        | some q =>
          if q ≤ (mp : ℚ) then
            st.entries ++ [{
              protocol := String.mk protocol
              localAddress := hpl.host
              localPort := hpl.port
              foreignAddress := hpf.host
              foreignPort := hpf.port
              state := ""
              pid := pid
              processName := match pid with
                             | none => ""
                             | some p => (pidMap p).getD "" }]
          else st.entries
        | none => st.entries
      { st with parsedCount := st.parsedCount + 1, entries := entries }
    else st

/-- One iteration of the per-line loop in the `data` handler: skip non-matching
lines, otherwise parse and then run the `% 25` progress throttle. -/
def lineStep (mp : Int) (pidMap : Int → Option String) (st : ScanState)
    (raw : List Char) : ScanState :=
  let line := jsTrim raw
  if line = [] || !protoPrefixTest line then st
  else
    let st1 := coreParse mp pidMap st raw
    if st1.parsedCount % 25 = 0 then
      let est := max st1.estimateTotal (st1.parsedCount + 50)
      { st1 with estimateTotal := est,
                 events := st1.events ++ [(st1.parsedCount, max (st1.parsedCount + 1) est)] }
    else st1

/-- The `data` handler: prepend the leftover, split on `\r?\n`, pop the final
(possibly incomplete) piece back into the leftover, and process the complete
lines. -/
def feedChunk (mp : Int) (pidMap : Int → Option String) (st : ScanState)
    (c : List Char) : ScanState :=
  let ls := splitCRLF (st.leftover ++ c)
  (ls.dropLast).foldl (lineStep mp pidMap) { st with leftover := ls.getLastD [] }

/-- Stable insertion into a sorted list (ties keep earlier elements first). -/
def insSorted (le : PortEntry → PortEntry → Bool) (a : PortEntry) :
    List PortEntry → List PortEntry
  | [] => [a]
  | b :: r => if le b a then b :: insSorted le a r else a :: b :: r

/-- The sort comparator `(a, b) => (a.localPort - b.localPort) || a.protocol.localeCompare(b.protocol)`
as a boolean "precedes or equal" relation (every stored entry has a finite
`localPort`, so the `getD` default is never exercised). -/
def entryLE (a b : PortEntry) : Bool :=
  let pa := a.localPort.getD 0
  let pb := b.localPort.getD 0
  if pa = pb then decide (a.protocol ≤ b.protocol) else decide (pa ≤ pb)

/-- The final `entries.sort(...)`: a stable sort by ascending local port, then
protocol name (JavaScript `Array.prototype.sort` is required to be stable, and
a stable sort result is unique, so stable insertion sort models it exactly). -/
def sortEntries (l : List PortEntry) : List PortEntry :=
  l.foldl (fun acc x => insSorted entryLE x acc) []

/-- The `end` handler: flush the leftover through the same parsing body, emit
the final `(parsedCount, parsedCount)` notification, and sort. -/
def finishScan (mp : Int) (pidMap : Int → Option String) (st : ScanState) :
    List PortEntry × List (Nat × Nat) :=
  let st1 := coreParse mp pidMap st st.leftover
  (sortEntries st1.entries, st1.events ++ [(st1.parsedCount, st1.parsedCount)])

/-- `scanPorts` from `js/syslib_ports.js`, with the subprocess stdout modelled
as the list of text chunks delivered to the `data` handler and the awaited
`tasklist` pid map as a parameter.  Returns the resolved entry list and the
sequence of `progressCb` notifications. -/
def scanPortsRun (mp : Int) (pidMap : Int → Option String) (chunks : List String) :
    List PortEntry × List (Nat × Nat) :=
  let m := clampMaxPort mp
  finishScan m pidMap (chunks.foldl (fun s c => feedChunk m pidMap s c.data) initState)

def noPids : Int → Option String := fun _ => none

/-! ## The Linux owner resolver (`lib/owners.js`)

The source file literally contains the patterns `/\\r?\\n/` and
`/^Uid:\\s+(\\d+)/m`: inside a regex literal `\\` matches one literal backslash,
so these patterns match backslash sequences in the text, not line breaks or
`Uid:<tab><digits>` lines.  They are embedded exactly as written. -/

/-- Generic JS `split` on a single character. -/
def splitOnChar (sep : Char) : List Char → List (List Char)
  | [] => [[]]
  | c :: rest =>
    if c = sep then [] :: splitOnChar sep rest
    else consHead c (splitOnChar sep rest)

/-- JavaScript `split(/\\r?\\n/)` as written in `lib/owners.js`: the separator
is a literal backslash, an optional literal `r` followed by a second literal
backslash, and a literal `n`. -/
def splitBslashN : List Char → List (List Char)
  | [] => [[]]
  | '\\' :: 'r' :: '\\' :: 'n' :: rest => [] :: splitBslashN rest
  | '\\' :: '\\' :: 'n' :: rest => [] :: splitBslashN rest
  | c :: rest => consHead c (splitBslashN rest)

/-- `buildUidNameMap` from `lib/owners.js`, with the contents of the account
database file as a parameter (the `readPasswd` helper returns `''` when the
read fails).  The JS object is modelled as a function with later assignments
shadowing earlier ones. -/
def buildUidNameMap (passwd : String) : ℚ → Option String :=
  (splitBslashN passwd.data).foldl
    (fun m line =>
      if line = [] then m
      else if line.head? = some '#' then m
      else
        let parts := splitOnChar ':' line
        if decide (3 ≤ parts.length) then
          match jsNumber ((parts.get? 2).getD []) with
          | some uid =>
            fun q => if q = uid then some (String.mk ((parts.get? 0).getD [])) else m q
          | none => m
        else m)
    (fun _ => none)

/-- Attempt of the written pattern `Uid:\\s+(\\d+)` at one position: literal
`Uid:`, a literal backslash, one or more literal `s`, then the capture — a
literal backslash followed by one or more literal `d`. -/
def brokenUidAt (l : List Char) : Option (List Char) :=
  match l with
  | 'U' :: 'i' :: 'd' :: ':' :: '\\' :: r =>
    let ss := r.takeWhile (fun c => c = 's')
    if ss = [] then none
    else
      match r.drop ss.length with
      | '\\' :: r2 =>
        let ds := r2.takeWhile (fun c => c = 'd')
        if ds = [] then none else some ('\\' :: ds)
      | _ => none
  | _ => none

/-- Multiline `^` search for the written pattern: try the string start and the
position after every line terminator, leftmost first. -/
def brokenUidScan : List Char → Option (List Char)
  | [] => none
  | c :: r =>
    if c = '\n' || c = '\r' then (brokenUidAt r).orElse (fun _ => brokenUidScan r)
    else brokenUidScan r

def brokenUidCapture (l : List Char) : Option (List Char) :=
  (brokenUidAt l).orElse (fun _ => brokenUidScan l)

/-- `pidToUid` from `lib/owners.js` with the status-file read as a parameter
(`none` = the read threw).  Outer `none` models the `null` return; `some none`
models a NaN result of `Number(m[1])`. -/
def pidToUid (statusTxt : Option String) : Option (Option ℚ) :=
  match statusTxt with
  | none => none
  | some s =>
    match brokenUidCapture s.data with
    | some cap => some (jsNumber cap)
    | none => none

/-- `ownersLinux` from `lib/owners.js`: the directory listing of the process
filesystem and the per-pid status-file reads are parameters.  A NaN uid passes
the `uid != null` test but can never hit a key of the uid→name table (only
finite uids are stored). -/
def ownersLinux (passwd : String) (entries : List String)
    (statusOf : ℚ → Option String) : List (ℚ × String) :=
  let uidName := buildUidNameMap passwd
  entries.foldl
    (fun m name =>
      match jsNumber name.data with
      | none => m
      | some pid =>
        match pidToUid (statusOf pid) with
        | none => m
        | some none => m
        | some (some uid) =>
          match uidName uid with
          | some nm => m ++ [(pid, nm)]
          | none => m)
    []

/-- Modelled from the spec: the intended real-uid extraction pattern
`Uid:\s+(\d+)` applied multiline — `Uid:` at a line start, one or more
whitespace characters, then a digit run whose value is the uid.  This is the
reference reading of the pattern the source mis-escapes. -/
def specUidAt (l : List Char) : Option Nat :=
  match l with
  | 'U' :: 'i' :: 'd' :: ':' :: r =>
    let ws := r.takeWhile isWS
    if ws = [] then none
    else
      let ds := (r.drop ws.length).takeWhile isDigit
      if ds = [] then none else some (natOfDigits ds)
  | _ => none

def specUidScan : List Char → Option Nat
  | [] => none
  | c :: r =>
    if c = '\n' || c = '\r' then (specUidAt r).orElse (fun _ => specUidScan r)
    else specUidScan r

/-- Modelled from the spec: leftmost multiline match of `Uid:\s+(\d+)`. -/
def specUidOf (status : String) : Option Nat :=
  (specUidAt status.data).orElse (fun _ => specUidScan status.data)

/-- Modelled from the spec: the uid→name table built from the colon-delimited
account database, one account per (real) line `name:...:uid:...`. -/
def specUidNameMap (passwd : String) : Nat → Option String :=
  (splitCRLF passwd.data).foldl
    (fun m line =>
      if line = [] then m
      else if line.head? = some '#' then m
      else
        let parts := splitOnChar ':' line
        if decide (3 ≤ parts.length) && ((parts.get? 2).getD []).all isDigit &&
            (parts.get? 2).getD [] ≠ [] then
          fun u => if u = natOfDigits ((parts.get? 2).getD []) then
                     some (String.mk ((parts.get? 0).getD []))
                   else m u
        else m)
    (fun _ => none)

/-- Example account database and status file used to exhibit the owner-resolver
behaviour. -/
def passwdEx : String :=
  "root:x:0:0:root:/root:/bin/bash\nalice:x:1000:1000::/home/alice:/bin/bash"

def statusEx : String :=
  "Name:\tnode\nUid:\t1000\t1000\t1000\t1000\nGid:\t1000\t1000\t1000\t1000"

def statusOfEx : ℚ → Option String :=
  fun q => if q = 1234 then some statusEx else none

/-! ## Lemmas about the Address Splitter on single-colon tokens -/

theorem dropWhile_all_false {p : Char → Bool} :
    ∀ {l : List Char}, (∀ c ∈ l, p c = false) → l.dropWhile p = l
  | [], _ => rfl
  | c :: r, h => by simp [List.dropWhile_cons, h c (by simp)]

theorem jsTrim_eq_self {l : List Char} (h : ∀ c ∈ l, isWS c = false) : jsTrim l = l := by
  unfold jsTrim
  rw [dropWhile_all_false h, dropWhile_all_false (fun c hc => h c (by simpa using hc)),
    List.reverse_reverse]

theorem isWS_chars {c : Char} (h : isWS c = true) :
    c = ' ' ∨ c = '\t' ∨ c = '\n' ∨ c = '\r' ∨ c = '\x0b' ∨ c = '\x0c' ∨ c = '\u00A0' := by
  unfold isWS at h
  simp only [Bool.or_eq_true, decide_eq_true_eq] at h
  tauto

theorem isDigit_not_ws {c : Char} (h : isDigit c = true) : isWS c = false := by
  by_cases hw : isWS c = true
  · exfalso
    rcases isWS_chars hw with rfl | rfl | rfl | rfl | rfl | rfl | rfl <;> simp [isDigit] at h
  · simpa using hw

theorem natOfDigits_int_cast (l : List Char) :
    (((natOfDigits l : Int)) : ℚ) = ((natOfDigits l : ℚ)) := by push_cast; rfl

/-- A non-empty all-digit string is a plain decimal literal. -/
theorem decLit_digits {ds : List Char} (h1 : ds ≠ [])
    (h2 : ∀ c ∈ ds, isDigit c = true) :
    decLit false ds = some ((natOfDigits ds : ℚ)) := by
  have hinf : ds ≠ "Infinity".data := by
    intro h
    have : isDigit 'I' = true := h2 'I' (by rw [h]; decide)
    simp [isDigit] at this
  have htake : ds.takeWhile isDigit = ds := List.takeWhile_eq_self_iff.mpr h2
  have hdrop : ds.dropWhile isDigit = [] := List.dropWhile_eq_nil_iff.mpr (fun c hc => h2 c hc)
  unfold decLit
  rw [if_neg hinf, htake, hdrop]
  simp only [List.length_nil, pow_zero, Int.toNat_zero, mul_one, one_mul]
  rw [if_neg (by simp [h1])]
  simp [expSuffix, natOfDigits, Rat.mkRat_one]

/-- Head and second characters of an all-digit string are digits, hence none of
the sign/radix marker characters. -/
theorem digit_get?_ne {ds : List Char} (h2 : ∀ c ∈ ds, isDigit c = true)
    {i : Nat} {m : Char} (hm : isDigit m = false) : ds.get? i ≠ some m := by
  intro h
  have : m ∈ ds := by
    have := List.get?_mem h
    exact this
  rw [h2 m this] at hm
  exact absurd hm (by simp)

/-- `Number` of a non-empty all-digit string is its numeric value. -/
theorem jsNumber_digits {ds : List Char} (h1 : ds ≠ [])
    (h2 : ∀ c ∈ ds, isDigit c = true) :
    jsNumber ds = some ((natOfDigits ds : ℚ)) := by
  have htrim : jsTrim ds = ds := jsTrim_eq_self (fun c hc => isDigit_not_ws (h2 c hc))
  have hhead : ds.head? = ds.get? 0 := by cases ds <;> rfl
  have hplus : ¬ ds.head? = some '+' := by rw [hhead]; exact digit_get?_ne h2 (by decide)
  have hminus : ¬ ds.head? = some '-' := by rw [hhead]; exact digit_get?_ne h2 (by decide)
  have hx : ¬ (ds.get? 1 = some 'x' || ds.get? 1 = some 'X') = true := by
    simp only [Bool.or_eq_true, decide_eq_true_eq]
    rintro (h | h) <;> exact digit_get?_ne h2 (by decide) h
  have ho : ¬ (ds.get? 1 = some 'o' || ds.get? 1 = some 'O') = true := by
    simp only [Bool.or_eq_true, decide_eq_true_eq]
    rintro (h | h) <;> exact digit_get?_ne h2 (by decide) h
  have hb : ¬ (ds.get? 1 = some 'b' || ds.get? 1 = some 'B') = true := by
    simp only [Bool.or_eq_true, decide_eq_true_eq]
    rintro (h | h) <;> exact digit_get?_ne h2 (by decide) h
  unfold jsNumber
  rw [htrim]
  rw [if_neg h1, if_neg hplus, if_neg hminus,
    if_neg (by simp only [Bool.and_eq_true]; rintro ⟨-, hc⟩; exact hx hc),
    if_neg (by simp only [Bool.and_eq_true]; rintro ⟨-, hc⟩; exact ho hc),
    if_neg (by simp only [Bool.and_eq_true]; rintro ⟨-, hc⟩; exact hb hc)]
  exact decLit_digits h1 h2

theorem lastIdxOf_eq_none {c : Char} : ∀ {l : List Char}, c ∉ l → lastIdxOf c l = none
  | [], _ => rfl
  | a :: r, h => by
    have ha : ¬ a = c := fun e => h (by simp [e])
    have hr : c ∉ r := fun e => h (by simp [e])
    simp [lastIdxOf, lastIdxOf_eq_none hr, ha]

theorem lastIdxOf_append {c : Char} :
    ∀ (a b : List Char), c ∉ a → c ∉ b → lastIdxOf c (a ++ c :: b) = some a.length
  | [], b, _, hb => by simp [lastIdxOf, lastIdxOf_eq_none hb]
  | x :: a', b, ha, hb => by
    have ha' : c ∉ a' := fun e => ha (by simp [e])
    simp [lastIdxOf, lastIdxOf_append a' b ha' hb]

theorem firstIdxOf_append {c : Char} :
    ∀ (a b : List Char), c ∉ a → firstIdxOf c (a ++ c :: b) = some a.length
  | [], b, _ => by simp [firstIdxOf]
  | x :: a', b, ha => by
    have hx : ¬ x = c := fun e => ha (by simp [e])
    have ha' : c ∉ a' := fun e => ha (by simp [e])
    simp [firstIdxOf, hx, firstIdxOf_append a' b ha']

/-- Splitting a unique-separator concatenation is injective. -/
theorem append_singleton_inj {c : Char} :
    ∀ {a₁ b₁ a₂ b₂ : List Char}, c ∉ a₁ → c ∉ a₂ →
      a₁ ++ c :: b₁ = a₂ ++ c :: b₂ → a₁ = a₂ ∧ b₁ = b₂
  | [], b₁, a₂, b₂, _, h₂, h => by
    match a₂, h₂, h with
    | [], _, h => simpa using h
    | y :: a₂', h₂, h =>
      exfalso
      have : c = y := by simpa using congrArg (fun l => l.head?) h
      exact h₂ (by simp [← this])
  | x :: a₁', b₁, a₂, b₂, h₁, h₂, h => by
    match a₂, h₂, h with
    | [], _, h =>
      exfalso
      have : x = c := by simpa using congrArg (fun l => l.head?) h
      exact h₁ (by simp [this])
    | y :: a₂', h₂, h =>
      have hx : x = y := by simpa using congrArg (fun l => l.head?) h
      have ht : a₁' ++ c :: b₁ = a₂' ++ c :: b₂ := by simpa using congrArg List.tail h
      have := append_singleton_inj (fun e => h₁ (by simp [e]))
        (fun e => h₂ (by simp [e])) ht
      exact ⟨by rw [hx, this.1], this.2⟩

theorem string_append_colon_data (pre post : String) :
    (pre ++ ":" ++ post).data = pre.data ++ ':' :: post.data := by
  simp [String.data_append]

/-- On a token of shape `pre:post` with colon-free `pre` and `post` and no
bracket match, `splitHostPort` splits at the colon and converts the suffix. -/
theorem splitHostPort_single_colon (pre post : String) (h1 : ':' ∉ pre.data)
    (h2 : ':' ∉ post.data)
    (h3 : matchBracketNS (pre ++ ":" ++ post).data = none) :
    splitHostPort (pre ++ ":" ++ post) = { host := pre, port := jsNumber post.data } := by
  have hdata := string_append_colon_data pre post
  have hne : (pre ++ ":" ++ post).data ≠ [] := by
    rw [hdata]; intro h; exact absurd (congrArg List.length h) (by simp)
  have hdrop : (pre.data ++ ':' :: post.data).drop (pre.data.length + 1) = post.data := by
    have he : pre.data ++ ':' :: post.data = (pre.data ++ [':']) ++ post.data := by simp
    have hl : (pre.data ++ [':']).length = pre.data.length + 1 := by simp
    rw [he, ← hl, List.drop_left]
  have hne' : pre.data ++ ':' :: post.data ≠ [] := by
    intro h; exact absurd (congrArg List.length h) (by simp)
  have h3' : matchBracketNS (pre.data ++ ':' :: post.data) = none := by
    rw [← hdata]; exact h3
  simp only [splitHostPort, hdata, if_neg hne', h3',
    lastIdxOf_append pre.data post.data h1 h2, firstIdxOf_append pre.data post.data h1,
    eq_self_iff_true, if_true, List.take_left, hdrop]

/-- Decomposition of a successful bracket match of `splitHostPort`. -/
theorem matchBracketNS_some {l inner ds : List Char}
    (h : matchBracketNS l = some (inner, ds)) :
    l = '[' :: (inner ++ ']' :: ':' :: ds) ∧ ds ≠ [] ∧ ds.all isDigit = true := by
  simp only [matchBracketNS] at h
  by_cases h0 : l.head? = some '['
  · rw [if_pos h0] at h
    rcases l with _ | ⟨a, t⟩
    · simp at h0
    · have ha : a = '[' := by simpa using h0
      subst ha
      simp only [List.drop_succ_cons, List.drop_zero] at h
      by_cases h1 : ((t.dropWhile (fun c => c ≠ ']')).head? = some ']' &&
          (t.dropWhile (fun c => c ≠ ']')).get? 1 = some ':') = true
      · rw [if_pos h1] at h
        simp only [Bool.and_eq_true, decide_eq_true_eq] at h1
        by_cases h2 : (t.takeWhile (fun c => c ≠ ']') ≠ [] &&
            (t.dropWhile (fun c => c ≠ ']')).drop 2 ≠ [] &&
            ((t.dropWhile (fun c => c ≠ ']')).drop 2).all isDigit) = true
        · rw [if_pos h2] at h
          have hinj := Option.some.inj h
          have hi : t.takeWhile (fun c => c ≠ ']') = inner := congrArg Prod.fst hinj
          have hd : (t.dropWhile (fun c => c ≠ ']')).drop 2 = ds := congrArg Prod.snd hinj
          simp only [Bool.and_eq_true, decide_eq_true_eq] at h2
          refine ⟨?_, by rw [← hd]; exact h2.1.2, by rw [← hd]; exact h2.2⟩
          have hafter : t.dropWhile (fun c => c ≠ ']') =
              ']' :: ':' :: (t.dropWhile (fun c => c ≠ ']')).drop 2 := by
            rcases hA : t.dropWhile (fun c => c ≠ ']') with _ | ⟨b, u⟩
            · rw [hA] at h1; simp at h1
            · rcases u with _ | ⟨b2, u2⟩
              · rw [hA] at h1; simp at h1
              · rw [hA] at h1
                obtain ⟨hb, hb2⟩ := h1
                simp only [List.head?_cons, Option.some.injEq] at hb
                simp only [List.get?_cons_succ, List.get?_cons_zero, Option.some.injEq] at hb2
                subst hb; subst hb2; rfl
          have hsplit := List.takeWhile_append_dropWhile (p := fun c => c ≠ ']') (l := t)
          rw [hi] at hsplit
          rw [hafter, hd] at hsplit
          rw [← hsplit]
        · rw [if_neg h2] at h; exact absurd h (by simp)
      · rw [if_neg h1] at h; exact absurd h (by simp)
  · rw [if_neg h0] at h; exact absurd h (by simp)

/-- C8 amended: for every token made of a colon-free prefix, a single colon,
and a colon-free suffix, when the bracketed form does not match,
`splitHostPort` splits at that colon; the port is the finite JS-number value of
the suffix (absent only when that value is NaN or infinite — in particular the
empty suffix gives port 0 and a numeric non-integer suffix gives that number). -/
theorem c8_single_colon_split (pre post : String) (h1 : ':' ∉ pre.data)
    (h2 : ':' ∉ post.data)
    (h3 : matchBracketNS (pre ++ ":" ++ post).data = none) :
    splitHostPort (pre ++ ":" ++ post) = { host := pre, port := jsNumber post.data } :=
  splitHostPort_single_colon pre post h1 h2 h3

/-- C8 witness: concrete instance `host:80`. -/
theorem c8_single_colon_split_witness :
    splitHostPort ("host" ++ ":" ++ "80") = { host := "host", port := jsNumber "80".data } :=
  c8_single_colon_split "host" "80" (by decide) (by decide) (by decide)

/-- C4 amended: on every token `host:digits` (colon-free host, non-empty digit
run) the Address Splitter — the sole producer of port values for the three
extractors — returns the digit run's numeric value as a present port, a
nonnegative integer; no [0, 65535] range check is applied to it. -/
theorem c4_digit_port_value (h p : String) (hh : ':' ∉ h.data) (hp1 : p.data ≠ [])
    (hp2 : ∀ c ∈ p.data, isDigit c = true) :
    (splitHostPort (h ++ ":" ++ p)).port = some ((natOfDigits p.data : ℚ)) ∧
    (0 : ℚ) ≤ ((natOfDigits p.data : ℚ)) := by
  refine ⟨?_, Nat.cast_nonneg _⟩
  have hpcolon : ':' ∉ p.data := by
    intro hm
    have := hp2 ':' hm
    simp [isDigit] at this
  cases hbr : matchBracketNS (h ++ ":" ++ p).data with
  | none =>
    rw [splitHostPort_single_colon h p hh hpcolon hbr]
    exact jsNumber_digits hp1 hp2
  | some pr =>
    obtain ⟨inner, ds⟩ := pr
    obtain ⟨hdec, hds1, hds2⟩ := matchBracketNS_some hbr
    have hdata := string_append_colon_data h p
    have hsplit2 : (h ++ ":" ++ p).data = ('[' :: inner ++ [']']) ++ ':' :: ds := by
      rw [hdec]; simp
    have hdigits : ∀ c ∈ ds, isDigit c = true := by
      intro c hc
      exact (List.all_eq_true.mp hds2) c hc
    have hdscolon : ':' ∉ ds := by
      intro hm
      have := hdigits ':' hm
      simp [isDigit] at this
    have hcount1 : ((h ++ ":" ++ p).data).count ':' = 1 := by
      rw [hdata, List.count_append, List.count_cons_self,
        List.count_eq_zero.mpr hh, List.count_eq_zero.mpr hpcolon]
    have hAcolon : ':' ∉ ('[' :: inner ++ [']']) := by
      intro hm
      have : 2 ≤ ((h ++ ":" ++ p).data).count ':' := by
        rw [hsplit2, List.count_append, List.count_cons_self,
          List.count_eq_zero.mpr hdscolon]
        have := List.count_pos_iff.mpr hm
        omega
      omega
    have heq := append_singleton_inj hh hAcolon (hdata ▸ hsplit2)
    have hne' : (h ++ ":" ++ p).data ≠ [] := by
      rw [hdata]
      intro hx
      exact absurd (congrArg List.length hx) (by simp)
    simp only [splitHostPort, if_neg hne', hbr]
    rw [heq.2]

/-- C4 amended witness: concrete instance `0.0.0.0:135`. -/
theorem c4_digit_port_value_witness :
    (splitHostPort ("0.0.0.0" ++ ":" ++ "135")).port = some ((natOfDigits "135".data : ℚ)) ∧
    (0 : ℚ) ≤ ((natOfDigits "135".data : ℚ)) :=
  c4_digit_port_value "0.0.0.0" "135" (by decide) (by decide) (by decide)

/-! ## Field-splitting lemmas: interior tokens are non-empty -/

theorem consHead_ne_nil {c : Char} {L : List (List Char)} : consHead c L ≠ [] := by
  cases L <;> simp [consHead]

theorem splitWSGo_ne_nil : ∀ (b : Bool) (l : List Char), splitWSGo b l ≠ []
  | _, [] => by simp [splitWSGo]
  | b, c :: r => by
    unfold splitWSGo
    by_cases hw : isWS c = true
    · cases b <;> simp [hw, splitWSGo_ne_nil true r]
    · simp only [hw, Bool.false_eq_true, if_false]
      exact consHead_ne_nil

/-- Collapsing whitespace then splitting on single spaces is the same as
splitting on whitespace runs. -/
theorem splitOnSpace_collapseGo : ∀ (l : List Char) (b : Bool),
    splitOnSpace (collapseGo b l) = splitWSGo b l := by
  intro l
  induction l with
  | nil => intro b; rfl
  | cons c r ih =>
    intro b
    by_cases hw : isWS c = true
    · cases b
      · simp only [collapseGo, splitWSGo, hw, if_true, Bool.false_eq_true, if_false,
          splitOnSpace, ih true]
      · simp only [collapseGo, splitWSGo, hw, if_true, ih true]
    · have hc : ¬ c = ' ' := by
        intro hc; rw [hc] at hw; simp [isWS] at hw
      simp only [collapseGo, splitWSGo, hw, Bool.false_eq_true, if_false,
        splitOnSpace, hc, ih false]

/-- In a whitespace-run split, every piece other than the first and the last is
non-empty (the first can be empty after leading whitespace, the last after
trailing whitespace). -/
theorem splitWSGo_nonempty_pieces : ∀ (l : List Char),
    (∀ x ∈ (splitWSGo true l).dropLast, x ≠ []) ∧
    (∀ x ∈ ((splitWSGo false l).drop 1).dropLast, x ≠ []) := by
  intro l
  induction l with
  | nil => exact ⟨by simp [splitWSGo], by simp [splitWSGo]⟩
  | cons c r ih =>
    obtain ⟨ih1, ih2⟩ := ih
    by_cases hw : isWS c = true
    · refine ⟨?_, ?_⟩
      · simpa [splitWSGo, hw] using ih1
      · simpa [splitWSGo, hw] using ih1
    · have key : ∀ x ∈ (consHead c (splitWSGo false r)).dropLast, x ≠ [] := by
        rcases hY : splitWSGo false r with _ | ⟨t, ts⟩
        · exact absurd hY (splitWSGo_ne_nil false r)
        · rcases ts with _ | ⟨u, us⟩
          · simp [consHead]
          · intro x hx
            simp only [consHead, List.dropLast_cons₂, List.mem_cons] at hx
            rcases hx with rfl | hx
            · simp
            · have := ih2 x (by rw [hY]; simpa using hx)
              exact this
      have key2 : ∀ x ∈ ((consHead c (splitWSGo false r)).drop 1).dropLast, x ≠ [] := by
        rcases hY : splitWSGo false r with _ | ⟨t, ts⟩
        · exact absurd hY (splitWSGo_ne_nil false r)
        · intro x hx
          simp only [consHead, List.drop_succ_cons, List.drop_zero] at hx
          exact ih2 x (by rw [hY]; simpa using hx)
      exact ⟨by simpa [splitWSGo, hw] using key, by simpa [splitWSGo, hw] using key2⟩

/-- Interior access into a piece list with non-empty interior pieces. -/
theorem interior_get_ne_nil {parts : List (List Char)}
    (hint : ∀ x ∈ (parts.drop 1).dropLast, x ≠ [])
    {i : Nat} (h1 : 0 < i) (h2 : i + 1 < parts.length) :
    (parts.get? i).getD [] ≠ [] := by
  have hi : i < parts.length := by omega
  rw [List.get?_eq_getElem?, List.getElem?_eq_getElem hi]
  apply hint
  have hlen : i - 1 < ((parts.drop 1).dropLast).length := by
    rw [List.length_dropLast, List.length_drop]
    omega
  have hval : ((parts.drop 1).dropLast)[i - 1] = parts[i] := by
    rw [List.getElem_dropLast, List.getElem_drop]
    congr 1
    omega
  rw [← hval]
  exact List.getElem_mem _

/-! ## Per-extractor record-shape lemmas (protocol and state) -/

theorem string_mk_ne_empty {l : List Char} (h : l ≠ []) : String.mk l ≠ "" := by
  intro he
  exact h (by simpa using congrArg String.data he)

theorem jsToUpperL_ne_nil {l : List Char} (h : l ≠ []) : jsToUpperL l ≠ [] := by
  intro he
  exact h (List.map_eq_nil_iff.mp he)

theorem tok1_ne_nil {l t r : List Char} (h : tok1 l = some (t, r)) : t ≠ [] := by
  unfold tok1 at h
  by_cases ht : l.takeWhile (fun c => !isWS c) = []
  · rw [if_pos ht] at h; exact absurd h (by simp)
  · rw [if_neg ht] at h
    simp only [Option.some.injEq, Prod.mk.injEq] at h
    intro hnil
    exact ht (by rw [h.1, hnil])

/-- Shape facts of a successful `parseWindowsNetstat` line parse. -/
theorem netstatLineToRec_some {l : List Char} {r : ConnRecord}
    (h : netstatLineToRec l = some r) :
    (r.protocol = "TCP" ∧ r.state ≠ "") ∨ (r.protocol = "UDP" ∧ r.state = "UNSPECIFIED") := by
  simp only [netstatLineToRec] at h
  split at h
  case isTrue hT =>
    left
    have hr := (Option.some.inj h).symm
    simp only [Bool.and_eq_true, decide_eq_true_eq] at hT
    have hparts : splitOnSpace (collapseWS l) = splitWSGo false l :=
      splitOnSpace_collapseGo l false
    have hstT : ((splitOnSpace (collapseWS l)).get? 3).getD [] ≠ [] := by
      apply interior_get_ne_nil (i := 3)
      · rw [hparts]; exact (splitWSGo_nonempty_pieces l).2
      · omega
      · omega
    constructor
    · rw [hr]
    · rw [hr]
      exact string_mk_ne_empty (jsToUpperL_ne_nil hstT)
  case isFalse =>
    split at h
    case isTrue hU =>
      right
      have hr := (Option.some.inj h).symm
      exact ⟨by rw [hr], by rw [hr]⟩
    case isFalse => exact absurd h (by simp)

/-- Protocol and state-token facts of a successful ss line match. -/
theorem ssMatch_props {l p3 st lo re : List Char} {users : Option (List Char)}
    (h : ssMatch l = some (p3, st, lo, re, users)) :
    (p3 = "TCP".data ∨ p3 = "UDP".data) ∧ st ≠ [] := by
  unfold ssMatch at h
  by_cases hp : (jsToUpperL (l.take 3) = "TCP".data || jsToUpperL (l.take 3) = "UDP".data) = true
  case neg => rw [if_neg hp] at h; exact absurd h (by simp)
  rw [if_pos hp] at h
  cases h1 : ws1 (l.drop 3) with
  | none => rw [h1] at h; exact absurd h (by simp)
  | some r1 =>
  simp only [h1] at h
  cases h2 : tok1 r1 with
  | none => simp only [h2] at h; exact absurd h (by simp)
  | some p2 =>
  obtain ⟨st0, r2⟩ := p2
  simp only [h2] at h
  cases h3 : ws1 r2 with
  | none => simp only [h3] at h; exact absurd h (by simp)
  | some r3 =>
  simp only [h3] at h
  cases h4 : tok1 r3 with
  | none => simp only [h4] at h; exact absurd h (by simp)
  | some p4 =>
  obtain ⟨x4, r4⟩ := p4
  simp only [h4] at h
  cases h5 : ws1 r4 with
  | none => simp only [h5] at h; exact absurd h (by simp)
  | some r5 =>
  simp only [h5] at h
  cases h6 : tok1 r5 with
  | none => simp only [h6] at h; exact absurd h (by simp)
  | some p6 =>
  obtain ⟨x6, r6⟩ := p6
  simp only [h6] at h
  cases h7 : ws1 r6 with
  | none => simp only [h7] at h; exact absurd h (by simp)
  | some r7 =>
  simp only [h7] at h
  cases h8 : tok1 r7 with
  | none => simp only [h8] at h; exact absurd h (by simp)
  | some p8 =>
  obtain ⟨lo0, r8⟩ := p8
  simp only [h8] at h
  cases h9 : ws1 r8 with
  | none => simp only [h9] at h; exact absurd h (by simp)
  | some r9 =>
  simp only [h9] at h
  cases h10 : tok1 r9 with
  | none => simp only [h10] at h; exact absurd h (by simp)
  | some p10 =>
  obtain ⟨re0, r10⟩ := p10
  simp only [h10] at h
  simp only [Option.some.injEq, Prod.mk.injEq] at h
  obtain ⟨hp3, hst, -, -, -⟩ := h
  constructor
  · rw [← hp3]
    simpa [Bool.or_eq_true, decide_eq_true_eq] using hp
  · rw [← hst]
    exact tok1_ne_nil h2

/-- Shape facts of a successful `parseLinuxSS` line parse. -/
theorem ssLineToRec_some {l : List Char} {r : ConnRecord}
    (h : ssLineToRec l = some r) :
    (r.protocol = "TCP" ∨ r.protocol = "UDP") ∧ r.state ≠ "" := by
  unfold ssLineToRec at h
  cases hm : ssMatch l with
  | none => rw [hm] at h; exact absurd h (by simp)
  | some q =>
    obtain ⟨p3, st, lo, re, users⟩ := q
    rw [hm] at h
    have hr := (Option.some.inj h).symm
    obtain ⟨hp3, hst⟩ := ssMatch_props hm
    constructor
    · rcases hp3 with h' | h'
      · left; rw [hr]; simp only []; rw [h']
      · right; rw [hr]; simp only []; rw [h']
    · rw [hr]
      exact string_mk_ne_empty (jsToUpperL_ne_nil hst)

theorem patHere3 {x y z : Char} : ∀ {l : List Char},
    patHere [[x], [y], [z]] l = true → jsToUpperL (l.take 3) = [x, y, z] := by
  intro l h
  match l with
  | [] => simp [patHere] at h
  | [a] => simp [patHere] at h
  | [a, b] => simp [patHere] at h
  | a :: b :: c :: r =>
    simp only [patHere, Bool.and_eq_true, List.contains_cons, List.contains_nil,
      Bool.or_false, beq_iff_eq] at h
    obtain ⟨ha, hb, hc, -⟩ := h
    simp [jsToUpperL, ha, hb, hc]

theorem findProtoCI_proto : ∀ (l : List Char) (prev : Option Char) {m0 : List Char},
    findProtoCI prev l = some m0 →
    jsToUpperL m0 = "TCP".data ∨ jsToUpperL m0 = "UDP".data := by
  intro l
  induction l with
  | nil =>
    intro prev m0 h
    unfold findProtoCI at h
    simp [patHere] at h
  | cons c r ih =>
    intro prev m0 h
    unfold findProtoCI at h
    split at h
    case isTrue hc =>
      have hm0 := (Option.some.inj h).symm
      simp only [Bool.and_eq_true, Bool.or_eq_true] at hc
      have hlitT : lit "TCP" = [['T'], ['C'], ['P']] := by decide
      have hlitU : lit "UDP" = [['U'], ['D'], ['P']] := by decide
      rcases hc.1.1 with h' | h'
      · left; rw [hm0]
        rw [hlitT] at h'
        exact patHere3 h'
      · right; rw [hm0]
        rw [hlitU] at h'
        exact patHere3 h'
    case isFalse => exact ih (some c) h

theorem parenStateHere_ne_nil {r inner : List Char}
    (h : parenStateHere r = some inner) : inner ≠ [] := by
  simp only [parenStateHere] at h
  split at h
  case isTrue hc =>
    simp only [Bool.and_eq_true, decide_eq_true_eq] at hc
    have := (Option.some.inj h).symm
    rw [this]
    exact hc.1.1
  case isFalse => exact absurd h (by simp)

theorem parenStateGo_ne_nil : ∀ (l : List Char) (i : Nat) {j : Nat} {inner : List Char},
    parenStateGo i l = some (j, inner) → inner ≠ [] := by
  intro l
  induction l with
  | nil => intro i j inner h; simp [parenStateGo] at h
  | cons c r ih =>
    intro i j inner h
    unfold parenStateGo at h
    split at h
    case isTrue hc =>
      cases hph : parenStateHere r with
      | some inn =>
        rw [hph] at h
        have := Option.some.inj h
        have hinn : inn = inner := congrArg Prod.snd this
        rw [← hinn]
        exact parenStateHere_ne_nil hph
      | none =>
        rw [hph] at h
        exact ih (i + 1) h
    case isFalse => exact ih (i + 1) h

/-- Shape facts of a successful `parseLsof` line parse. -/
theorem lsofLineToRec_some {l : List Char} {r : ConnRecord}
    (h : lsofLineToRec l = some r) :
    (r.protocol = "TCP" ∨ r.protocol = "UDP") ∧ r.state ≠ "" := by
  unfold lsofLineToRec at h
  cases hm : findProtoCI none l with
  | none => rw [hm] at h; exact absurd h (by simp)
  | some m0 =>
    rw [hm] at h
    have hr := (Option.some.inj h).symm
    have hproto := findProtoCI_proto l none hm
    constructor
    · rcases hproto with h' | h'
      · left; rw [hr]; simp only []; rw [h']
      · right; rw [hr]; simp only []; rw [h']
    · rw [hr]
      simp only []
      set ap := jsTrim (l.drop ((idxOfSub m0 l).getD 0 + 3)) with hap
      rcases hst : parenStateGo 0 ap with _ | ⟨j, inner⟩
      · simp only [hst]
        split
        · decide
        · decide
      · simp only [hst]
        apply string_mk_ne_empty
        apply jsToUpperL_ne_nil
        exact parenStateGo_ne_nil ap 0 hst

/-- C9: every record output by `parseWindowsNetstat`, `parseLinuxSS` or
`parseLsof` has protocol TCP or UDP, and every TCP record has a non-empty
state string. -/
theorem c9_protocol_state_invariant (text : String) (r : ConnRecord)
    (h : r ∈ parseWindowsNetstat text ∨ r ∈ parseLinuxSS text ∨ r ∈ parseLsof text) :
    (r.protocol = "TCP" ∨ r.protocol = "UDP") ∧ (r.protocol = "TCP" → r.state ≠ "") := by
  rcases h with h | h | h
  · obtain ⟨l, -, hrec⟩ := List.mem_filterMap.mp h
    rcases netstatLineToRec_some hrec with ⟨hp, hs⟩ | ⟨hp, hs⟩
    · exact ⟨Or.inl hp, fun _ => hs⟩
    · refine ⟨Or.inr hp, fun hT => ?_⟩
      rw [hp] at hT
      exact absurd hT (by decide)
  · obtain ⟨l, -, hrec⟩ := List.mem_filterMap.mp h
    obtain ⟨hp, hs⟩ := ssLineToRec_some hrec
    exact ⟨hp, fun _ => hs⟩
  · obtain ⟨l, -, hrec⟩ := List.mem_filterMap.mp h
    obtain ⟨hp, hs⟩ := lsofLineToRec_some hrec
    exact ⟨hp, fun _ => hs⟩

/-- C9 witness: the concrete example line's record. -/
theorem c9_protocol_state_invariant_witness :
    ({ key := "TCP|0.0.0.0:135|0.0.0.0:0|900", protocol := "TCP",
       localAddress := "0.0.0.0", localPort := some 135,
       remoteAddress := "0.0.0.0", remotePort := some 0,
       state := "LISTENING", pid := some 900, processName := none,
       owner := none } : ConnRecord).protocol = "TCP" ∨
    ({ key := "TCP|0.0.0.0:135|0.0.0.0:0|900", protocol := "TCP",
       localAddress := "0.0.0.0", localPort := some 135,
       remoteAddress := "0.0.0.0", remotePort := some 0,
       state := "LISTENING", pid := some 900, processName := none,
       owner := none } : ConnRecord).protocol = "UDP" :=
  (c9_protocol_state_invariant
    "  TCP    0.0.0.0:135            0.0.0.0:0              LISTENING       900" _
    (Or.inl (by decide))).1

/-! ## Invariants of the Streaming Scan Engine -/

/-- The invariant every pushed entry satisfies: a present local port within the
clamped bound, and the empty state string on UDP entries. -/
def GoodEntry (mp : Int) (e : PortEntry) : Prop :=
  (∃ q, e.localPort = some q ∧ q ≤ (mp : ℚ)) ∧ (e.protocol = "UDP" → e.state = "")

theorem coreParse_good {mp : Int} {pm : Int → Option String} {st : ScanState}
    {raw : List Char} (h : ∀ e ∈ st.entries, GoodEntry mp e) :
    ∀ e ∈ (coreParse mp pm st raw).entries, GoodEntry mp e := by
  intro e he
  simp only [coreParse] at he
  split at he
  · exact h e he
  · split at he
    · exact h e he
    · split at he
      case isTrue hT =>
        simp only [Bool.and_eq_true, decide_eq_true_eq] at hT
        split at he
        case h_1 q hq =>
          split at he
          case isTrue hle =>
            simp only [List.mem_append, List.mem_singleton] at he
            rcases he with he | he
            · exact h e he
            · subst he
              refine ⟨⟨q, by simpa using hq, hle⟩, ?_⟩
              intro hU
              dsimp only at hU
              rw [hT.1] at hU
              exact absurd hU (by decide)
          case isFalse => exact h e he
        case h_2 => exact h e he
      case isFalse =>
        split at he
        case isTrue hU =>
          split at he
          case h_1 q hq =>
            split at he
            case isTrue hle =>
              simp only [List.mem_append, List.mem_singleton] at he
              rcases he with he | he
              · exact h e he
              · subst he
                exact ⟨⟨q, by simpa using hq, hle⟩, fun _ => rfl⟩

            case isFalse => exact h e he
          case h_2 => exact h e he
        case isFalse => exact h e he

theorem lineStep_good {mp : Int} {pm : Int → Option String} {st : ScanState}
    {raw : List Char} (h : ∀ e ∈ st.entries, GoodEntry mp e) :
    ∀ e ∈ (lineStep mp pm st raw).entries, GoodEntry mp e := by
  intro e he
  simp only [lineStep] at he
  split at he
  · exact h e he
  · split at he
    · exact coreParse_good h e (by simpa using he)
    · exact coreParse_good h e he

/-- Generic preservation of a state predicate along a fold. -/
theorem foldl_pres {α : Type} {P : ScanState → Prop} {f : ScanState → α → ScanState}
    (hf : ∀ s a, P s → P (f s a)) : ∀ (ls : List α) (s : ScanState), P s → P (ls.foldl f s)
  | [], _, h => h
  | a :: ls, s, h => foldl_pres hf ls (f s a) (hf s a h)

theorem feedChunk_good {mp : Int} {pm : Int → Option String} {st : ScanState}
    {c : List Char} (h : ∀ e ∈ st.entries, GoodEntry mp e) :
    ∀ e ∈ (feedChunk mp pm st c).entries, GoodEntry mp e := by
  unfold feedChunk
  exact foldl_pres (P := fun s => ∀ e ∈ s.entries, GoodEntry mp e)
    (fun s a hs => lineStep_good hs) _ _ (by simpa using h)

theorem mem_insSorted {le : PortEntry → PortEntry → Bool} {a x : PortEntry} :
    ∀ {l : List PortEntry}, x ∈ insSorted le a l ↔ x = a ∨ x ∈ l
  | [] => by simp [insSorted]
  | b :: r => by
    unfold insSorted
    split
    · simp only [List.mem_cons, mem_insSorted (l := r)]
      tauto
    · simp [List.mem_cons]

theorem mem_sortFold {x : PortEntry} :
    ∀ (l acc : List PortEntry),
      x ∈ l.foldl (fun acc y => insSorted entryLE y acc) acc ↔ x ∈ acc ∨ x ∈ l
  | [], acc => by simp
  | y :: l, acc => by
    simp only [List.foldl_cons, mem_sortFold l, mem_insSorted, List.mem_cons]
    tauto

theorem mem_sortEntries {x : PortEntry} {l : List PortEntry} :
    x ∈ sortEntries l ↔ x ∈ l := by
  unfold sortEntries
  rw [mem_sortFold]
  simp

theorem scan_entries_good (mp : Int) (pm : Int → Option String) (chunks : List String) :
    ∀ e ∈ (scanPortsRun mp pm chunks).1, GoodEntry (clampMaxPort mp) e := by
  intro e he
  unfold scanPortsRun finishScan at he
  simp only [mem_sortEntries] at he
  refine coreParse_good ?_ e he
  exact foldl_pres (P := fun s => ∀ e ∈ s.entries, GoodEntry (clampMaxPort mp) e)
    (fun s a hs => feedChunk_good hs) chunks initState (by simp [initState])

/-- C5: for a maxPort bound in [1, 65535], every entry resolved by the
streaming scan engine has a present local port not exceeding the bound
(absent or unparsable ports having been excluded, not errored). -/
theorem c5_bound_enforced (mp : Int) (pm : Int → Option String) (chunks : List String)
    (r : PortEntry) (h1 : 1 ≤ mp) (h2 : mp ≤ 65535)
    (hr : r ∈ (scanPortsRun mp pm chunks).1) :
    ∃ q, r.localPort = some q ∧ q ≤ (mp : ℚ) := by
  have hcl : clampMaxPort mp = mp := by
    unfold clampMaxPort
    rw [max_eq_right h1, min_eq_right h2]
  have hg := scan_entries_good mp pm chunks r hr
  rw [hcl] at hg
  exact hg.1

/-- C5 witness: a concrete scan at bound 1024 with one TCP record on port 80. -/
theorem c5_bound_enforced_witness :
    ∃ q, ({ protocol := "TCP", localAddress := "1.2.3.4", localPort := some 80,
            foreignAddress := "5.6.7.8", foreignPort := some 9, state := "LISTENING",
            pid := some 42, processName := "" } : PortEntry).localPort = some q ∧
         q ≤ ((1024 : Int) : ℚ) :=
  c5_bound_enforced 1024 noPids ["TCP 1.2.3.4:80 5.6.7.8:9 LISTENING 42\n"]
    { protocol := "TCP", localAddress := "1.2.3.4", localPort := some 80,
      foreignAddress := "5.6.7.8", foreignPort := some 9, state := "LISTENING",
      pid := some 42, processName := "" }
    (by decide) (by decide) (by decide)

/-- C7 amended: `parseWindowsNetstat` always marks UDP records `UNSPECIFIED`,
while the streaming scan engine always leaves UDP entries with the empty state
string (`parseLinuxSS` and `parseLsof` give no such guarantee: the former
copies the ss state column verbatim and the latter defaults to `UNSPECIFIED`
only without a parenthesized state suffix). -/
theorem c7_udp_state_values :
    (∀ (text : String) (r : ConnRecord), r ∈ parseWindowsNetstat text →
        r.protocol = "UDP" → r.state = "UNSPECIFIED") ∧
    (∀ (mp : Int) (pm : Int → Option String) (chunks : List String) (r : PortEntry),
        r ∈ (scanPortsRun mp pm chunks).1 → r.protocol = "UDP" → r.state = "") := by
  constructor
  · intro text r h hU
    obtain ⟨l, -, hrec⟩ := List.mem_filterMap.mp h
    rcases netstatLineToRec_some hrec with ⟨hp, -⟩ | ⟨-, hs⟩
    · rw [hp] at hU
      exact absurd hU (by decide)
    · exact hs
  · intro mp pm chunks r h hU
    exact (scan_entries_good mp pm chunks r h).2 hU

/-- C7 amended witness: concrete UDP records of both producers. -/
theorem c7_udp_state_values_witness :
    ({ key := "UDP|1.2.3.4:80|5.6.7.8:9|42", protocol := "UDP",
       localAddress := "1.2.3.4", localPort := some 80,
       remoteAddress := "5.6.7.8", remotePort := some 9,
       state := "UNSPECIFIED", pid := some 42, processName := none,
       owner := none } : ConnRecord).state = "UNSPECIFIED" ∧
    ({ protocol := "UDP", localAddress := "0.0.0.0", localPort := some 68,
       foreignAddress := "*", foreignPort := none, state := "", pid := some 99,
       processName := "" } : PortEntry).state = "" :=
  ⟨c7_udp_state_values.1 "UDP 1.2.3.4:80 5.6.7.8:9 42"
      { key := "UDP|1.2.3.4:80|5.6.7.8:9|42", protocol := "UDP",
        localAddress := "1.2.3.4", localPort := some 80,
        remoteAddress := "5.6.7.8", remotePort := some 9,
        state := "UNSPECIFIED", pid := some 42, processName := none,
        owner := none } (by decide) (by decide),
   c7_udp_state_values.2 65535 noPids ["UDP 0.0.0.0:68 *:* 99\n"]
      { protocol := "UDP", localAddress := "0.0.0.0", localPort := some 68,
        foreignAddress := "*", foreignPort := none, state := "", pid := some 99,
        processName := "" } (by decide) (by decide)⟩

/-! ## Progress-event invariants (C6) -/

theorem mem_of_getLastQ {α : Type} {l : List α} {x : α} (h : x ∈ l.getLast?) : x ∈ l := by
  obtain ⟨hne, rfl⟩ := List.mem_getLast?_eq_getLast h
  exact List.getLast_mem hne

theorem coreParse_events_frame (mp : Int) (pm : Int → Option String) (st : ScanState)
    (raw : List Char) :
    (coreParse mp pm st raw).events = st.events ∧
    st.parsedCount ≤ (coreParse mp pm st raw).parsedCount := by
  refine ⟨?_, ?_⟩ <;>
    (simp only [coreParse]
     repeat' split) <;>
    simp [Nat.le_succ]

/-- The event-stream invariant: currents are chained non-decreasing and bounded
by the running parse count. -/
def EvOK (st : ScanState) : Prop :=
  List.Chain' (fun x y => x.1 ≤ y.1) st.events ∧ ∀ e ∈ st.events, e.1 ≤ st.parsedCount

theorem evOK_append {st1 : ScanState} (hE : EvOK st1) (tot : Nat) :
    List.Chain' (fun x y : Nat × Nat => x.1 ≤ y.1)
      (st1.events ++ [(st1.parsedCount, tot)]) ∧
    ∀ e ∈ st1.events ++ [(st1.parsedCount, tot)], e.1 ≤ st1.parsedCount := by
  constructor
  · rw [List.chain'_append]
    refine ⟨hE.1, by simp, ?_⟩
    intro x hx y hy
    simp only [List.head?_cons, Option.mem_def, Option.some.injEq] at hy
    subst hy
    exact hE.2 x (mem_of_getLastQ hx)
  · intro e he
    rcases List.mem_append.mp he with he | he
    · exact hE.2 e he
    · simp only [List.mem_singleton] at he
      subst he
      exact le_refl _

theorem lineStep_evOK {mp : Int} {pm : Int → Option String} {st : ScanState}
    {raw : List Char} (h : EvOK st) : EvOK (lineStep mp pm st raw) := by
  simp only [lineStep]
  split
  · exact h
  · have hco := coreParse_events_frame mp pm st raw
    have h1 : EvOK (coreParse mp pm st raw) :=
      ⟨by rw [hco.1]; exact h.1,
       fun e he => le_trans (h.2 e (by rw [← hco.1]; exact he)) hco.2⟩
    split
    · refine ⟨?_, ?_⟩
      · dsimp only
        exact (evOK_append h1 _).1
      · dsimp only
        exact fun e he => (evOK_append h1 _).2 e he
    · exact h1

theorem feedChunk_evOK {mp : Int} {pm : Int → Option String} {st : ScanState}
    {c : List Char} (h : EvOK st) : EvOK (feedChunk mp pm st c) := by
  unfold feedChunk
  refine foldl_pres (P := EvOK) (fun s a hs => lineStep_evOK hs) _ _ ?_
  exact ⟨h.1, h.2⟩

/-- C6: across every scan, the `current` components of the progress
notifications form a non-decreasing chain, and the final notification has
`current = total`. -/
theorem c6_progress_monotone (mp : Int) (pm : Int → Option String) (chunks : List String) :
    List.Chain' (fun x y => x.1 ≤ y.1) (scanPortsRun mp pm chunks).2 ∧
    ∃ n, ((scanPortsRun mp pm chunks).2).getLast? = some (n, n) := by
  unfold scanPortsRun finishScan
  dsimp only
  have hfold : EvOK (chunks.foldl
      (fun s c => feedChunk (clampMaxPort mp) pm s c.data) initState) :=
    foldl_pres (fun s a hs => feedChunk_evOK hs) chunks initState
      ⟨by simp [initState], by simp [initState]⟩
  have hco := coreParse_events_frame (clampMaxPort mp) pm
    (chunks.foldl (fun s c => feedChunk (clampMaxPort mp) pm s c.data) initState)
    (chunks.foldl (fun s c => feedChunk (clampMaxPort mp) pm s c.data) initState).leftover
  have h1 : EvOK (coreParse (clampMaxPort mp) pm
      (chunks.foldl (fun s c => feedChunk (clampMaxPort mp) pm s c.data) initState)
      (chunks.foldl (fun s c => feedChunk (clampMaxPort mp) pm s c.data) initState).leftover) :=
    ⟨by rw [hco.1]; exact hfold.1,
     fun e he => le_trans (hfold.2 e (by rw [← hco.1]; exact he)) hco.2⟩
  exact ⟨(evOK_append h1 _).1, _, List.getLast?_concat _⟩

/-! ## Chunk-reassembly lemmas (C1): `split(/\r?\n/)` under concatenation -/

theorem splitCRLF_nl (rest : List Char) : splitCRLF ('\n' :: rest) = [] :: splitCRLF rest := rfl

theorem splitCRLF_crnl (rest : List Char) :
    splitCRLF ('\r' :: '\n' :: rest) = [] :: splitCRLF rest := rfl

theorem splitCRLF_ne_nil : ∀ (l : List Char), splitCRLF l ≠ [] := by
  intro l
  induction l using splitCRLF.induct with
  | case1 => simp [splitCRLF]
  | case2 rest ih => rw [splitCRLF_nl]; simp
  | case3 rest ih => rw [splitCRLF_crnl]; simp
  | case4 rest h ih => rw [splitCRLF.eq_4 rest h]; exact consHead_ne_nil
  | case5 c rest h1 h2 h3 ih => rw [splitCRLF.eq_5 c rest h1 h2 h3]; exact consHead_ne_nil

theorem splitCRLF_noNL : ∀ {l : List Char}, '\n' ∉ l → splitCRLF l = [l] := by
  intro l
  induction l using splitCRLF.induct with
  | case1 => intro _; rfl
  | case2 rest ih => intro h; exact absurd (by simp) h
  | case3 rest ih => intro h; exact absurd (by simp) h
  | case4 rest h ih =>
    intro hn
    have hr : '\n' ∉ rest := fun hm => hn (by simp [hm])
    rw [splitCRLF.eq_4 rest h, ih hr]
    rfl
  | case5 c rest h1 h2 h3 ih =>
    intro hn
    have hr : '\n' ∉ rest := fun hm => hn (by simp [hm])
    rw [splitCRLF.eq_5 c rest h1 h2 h3, ih hr]
    rfl

theorem getLastD_indep {α : Type} {l : List α} (h : l ≠ []) (d d' : α) :
    l.getLastD d = l.getLastD d' := by
  rw [List.getLastD_eq_getLast?, List.getLastD_eq_getLast?]
  cases hx : l.getLast? with
  | none => exact absurd (List.getLast?_eq_none_iff.mp hx) h
  | some x => simp

theorem getLastD_cons' {α : Type} (a : α) (l : List α) (d : α) :
    (a :: l).getLastD d = l.getLastD a := by
  cases l <;> simp [List.getLastD]

theorem getLastD_cons_ne {α : Type} {l : List α} (h : l ≠ []) (a : α) (d : α) :
    (a :: l).getLastD d = l.getLastD d := by
  rw [getLastD_cons', getLastD_indep h]

theorem dropLast_cons_ne {α : Type} {l : List α} (h : l ≠ []) (a : α) :
    (a :: l).dropLast = a :: l.dropLast := by
  cases l with
  | nil => exact absurd rfl h
  | cons x r => rw [List.dropLast_cons₂]

theorem consHead_getLastD_noNL {c : Char} (hc : ¬ c = '\n') {L : List (List Char)}
    (h : '\n' ∉ L.getLastD []) : '\n' ∉ (consHead c L).getLastD [] := by
  rcases L with _ | ⟨t, ts⟩
  · intro he
    have : '\n' = c := by simpa [consHead, List.getLastD] using he
    exact hc this.symm
  · rcases ts with _ | ⟨u, us⟩
    · intro he
      have he' : '\n' = c ∨ '\n' ∈ t := by simpa [consHead, List.getLastD] using he
      have ht : '\n' ∉ t := by simpa [List.getLastD] using h
      rcases he' with he' | he'
      · exact hc he'.symm
      · exact ht he'
    · have hne : (u :: us : List (List Char)) ≠ [] := by simp
      rw [consHead, getLastD_cons_ne hne]
      rwa [getLastD_cons_ne hne] at h

theorem splitCRLF_getLastD_noNL : ∀ (l : List Char), '\n' ∉ (splitCRLF l).getLastD [] := by
  intro l
  induction l using splitCRLF.induct with
  | case1 => simp [splitCRLF]
  | case2 rest ih =>
    rw [splitCRLF_nl, getLastD_cons_ne (splitCRLF_ne_nil rest)]
    exact ih
  | case3 rest ih =>
    rw [splitCRLF_crnl, getLastD_cons_ne (splitCRLF_ne_nil rest)]
    exact ih
  | case4 rest h ih =>
    rw [splitCRLF.eq_4 rest h]
    exact consHead_getLastD_noNL (by decide) ih
  | case5 c rest h1 h2 h3 ih =>
    rw [splitCRLF.eq_5 c rest h1 h2 h3]
    exact consHead_getLastD_noNL h1 ih

theorem splitCRLF_singleton : ∀ {l t : List Char}, splitCRLF l = [t] → t = l := by
  intro l
  induction l using splitCRLF.induct with
  | case1 => intro t h; simpa [splitCRLF] using (List.cons.inj h).1.symm
  | case2 rest ih =>
    intro t h
    rw [splitCRLF_nl] at h
    exact absurd (List.cons.inj h).2 (splitCRLF_ne_nil rest)
  | case3 rest ih =>
    intro t h
    rw [splitCRLF_crnl] at h
    exact absurd (List.cons.inj h).2 (splitCRLF_ne_nil rest)
  | case4 rest h ih =>
    intro t hh
    rw [splitCRLF.eq_4 rest h] at hh
    rcases hS : splitCRLF rest with _ | ⟨u, us⟩
    · exact absurd hS (splitCRLF_ne_nil rest)
    · rw [hS, consHead] at hh
      obtain ⟨h1, h2⟩ := List.cons.inj hh
      have : u = rest := ih (by rw [hS, h2])
      rw [← h1, this]
  | case5 c rest h1 h2 h3 ih =>
    intro t hh
    rw [splitCRLF.eq_5 c rest h1 h2 h3] at hh
    rcases hS : splitCRLF rest with _ | ⟨u, us⟩
    · exact absurd hS (splitCRLF_ne_nil rest)
    · rw [hS, consHead] at hh
      obtain ⟨h1', h2'⟩ := List.cons.inj hh
      have : u = rest := ih (by rw [hS, h2'])
      rw [← h1', this]

/-- The central reassembly identity: splitting a concatenation splits the first
part, keeps its complete lines, and re-splits its (possibly incomplete) last
piece together with the rest.  This is exactly what the leftover buffer of the
scan engine exploits. -/
theorem splitCRLF_append : ∀ (a b : List Char),
    splitCRLF (a ++ b) =
      (splitCRLF a).dropLast ++ splitCRLF ((splitCRLF a).getLastD [] ++ b) := by
  intro a
  induction a using splitCRLF.induct with
  | case1 =>
    intro b
    simp [splitCRLF]
  | case2 rest ih =>
    intro b
    rw [List.cons_append, splitCRLF_nl, splitCRLF_nl, ih b,
      dropLast_cons_ne (splitCRLF_ne_nil rest),
      getLastD_cons_ne (splitCRLF_ne_nil rest), List.cons_append]
  | case3 rest ih =>
    intro b
    rw [List.cons_append, List.cons_append, splitCRLF_crnl, splitCRLF_crnl, ih b,
      dropLast_cons_ne (splitCRLF_ne_nil rest),
      getLastD_cons_ne (splitCRLF_ne_nil rest), List.cons_append]
  | case4 rest h ih =>
    intro b
    rcases hrest : rest with _ | ⟨c2, r2⟩
    · simp [splitCRLF, consHead]
    · have hc2 : ¬ c2 = '\n' := by
        intro he
        exact h r2 (by rw [hrest, he])
      rw [← hrest]
      have hnotnl : ∀ r1, rest ++ b = '\n' :: r1 → False := by
        intro r1 he
        rw [hrest] at he
        exact hc2 (List.cons.inj he).1
      rw [List.cons_append, splitCRLF.eq_4 _ hnotnl, splitCRLF.eq_4 _ h, ih b]
      rcases hS : splitCRLF rest with _ | ⟨t, ts⟩
      · exact absurd hS (splitCRLF_ne_nil rest)
      · rcases ts with _ | ⟨u, us⟩
        · have ht : t = rest := splitCRLF_singleton hS
          have htb : ∀ r1, t ++ b = '\n' :: r1 → False := by
            intro r1 he
            rw [ht, hrest] at he
            exact hc2 (List.cons.inj he).1
          simp only [consHead, List.dropLast_single, List.getLastD_cons,
            List.getLastD_nil, List.nil_append, List.cons_append]
          rw [splitCRLF.eq_4 _ htb, consHead.eq_def]
        · have hne : (u :: us : List (List Char)) ≠ [] := by simp
          simp only [consHead, dropLast_cons_ne hne, getLastD_cons_ne hne,
            List.cons_append]
  | case5 c rest h1 h2 h3 ih =>
    intro b
    have h2' : ∀ r1, c = '\x0d' → rest ++ b = '\n' :: r1 → False := by
      intro r1 hc _
      exact h3 hc
    rw [List.cons_append, splitCRLF.eq_5 c _ h1 h2' h3, splitCRLF.eq_5 c rest h1 h2 h3, ih b]
    rcases hS : splitCRLF rest with _ | ⟨t, ts⟩
    · exact absurd hS (splitCRLF_ne_nil rest)
    · rcases ts with _ | ⟨u, us⟩
      · have h2'' : ∀ r1, c = '\x0d' → t ++ b = '\n' :: r1 → False := by
          intro r1 hc _
          exact h3 hc
        simp only [consHead, List.dropLast_single, List.getLastD_cons,
          List.getLastD_nil, List.nil_append, List.cons_append]
        rw [splitCRLF.eq_5 c _ h1 h2'' h3, consHead.eq_def]
      · have hne : (u :: us : List (List Char)) ≠ [] := by simp
        simp only [consHead, dropLast_cons_ne hne, getLastD_cons_ne hne,
          List.cons_append]

theorem dropLast_append_ne {α : Type} {l : List α} (h : l ≠ []) :
    ∀ (x : List α), (x ++ l).dropLast = x ++ l.dropLast
  | [] => by simp
  | a :: x => by
    have hx : x ++ l ≠ [] := by simp [h]
    rw [List.cons_append, dropLast_cons_ne hx, dropLast_append_ne h x, List.cons_append]

theorem getLastD_append_ne {α : Type} {l : List α} (h : l ≠ []) :
    ∀ (x : List α) (d : α), (x ++ l).getLastD d = l.getLastD d
  | [], _ => rfl
  | a :: x, d => by
    have hx : x ++ l ≠ [] := by simp [h]
    rw [List.cons_append, getLastD_cons_ne hx, getLastD_append_ne h x d]

theorem coreParse_leftover_frame (mp : Int) (pm : Int → Option String) (st : ScanState)
    (raw : List Char) : (coreParse mp pm st raw).leftover = st.leftover := by
  simp only [coreParse]
  (repeat' split) <;> rfl

theorem coreParse_leftover_set (mp : Int) (pm : Int → Option String) (st : ScanState)
    (raw x : List Char) :
    coreParse mp pm { st with leftover := x } raw =
      { coreParse mp pm st raw with leftover := x } := by
  simp only [coreParse]
  (repeat' split) <;> rfl

theorem lineStep_leftover_frame (mp : Int) (pm : Int → Option String) (st : ScanState)
    (raw : List Char) : (lineStep mp pm st raw).leftover = st.leftover := by
  simp only [lineStep]
  split
  · rfl
  · split
    · dsimp only
      exact coreParse_leftover_frame mp pm st raw
    · exact coreParse_leftover_frame mp pm st raw

theorem lineStep_leftover_set (mp : Int) (pm : Int → Option String) (st : ScanState)
    (raw x : List Char) :
    lineStep mp pm { st with leftover := x } raw =
      { lineStep mp pm st raw with leftover := x } := by
  simp only [lineStep]
  rw [coreParse_leftover_set]
  dsimp only
  (repeat' split) <;> rfl

theorem foldl_lineStep_leftover_frame (mp : Int) (pm : Int → Option String) :
    ∀ (ls : List (List Char)) (st : ScanState),
      (ls.foldl (lineStep mp pm) st).leftover = st.leftover
  | [], _ => rfl
  | r :: ls, st => by
    rw [List.foldl_cons, foldl_lineStep_leftover_frame mp pm ls,
      lineStep_leftover_frame]

theorem foldl_lineStep_leftover_set (mp : Int) (pm : Int → Option String) :
    ∀ (ls : List (List Char)) (st : ScanState) (x : List Char),
      ls.foldl (lineStep mp pm) { st with leftover := x } =
        { ls.foldl (lineStep mp pm) st with leftover := x }
  | [], _, _ => rfl
  | r :: ls, st, x => by
    rw [List.foldl_cons, List.foldl_cons, lineStep_leftover_set]
    exact foldl_lineStep_leftover_set mp pm ls (lineStep mp pm st r) x

theorem feedChunk_leftover (mp : Int) (pm : Int → Option String) (st : ScanState)
    (c : List Char) :
    (feedChunk mp pm st c).leftover = (splitCRLF (st.leftover ++ c)).getLastD [] := by
  unfold feedChunk
  rw [foldl_lineStep_leftover_frame]

/-- Canonical form of one chunk step. -/
theorem feedChunk_as_fold (mp : Int) (pm : Int → Option String) (st : ScanState)
    (c : List Char) :
    feedChunk mp pm st c =
      { (splitCRLF (st.leftover ++ c)).dropLast.foldl (lineStep mp pm) st with
        leftover := (splitCRLF (st.leftover ++ c)).getLastD [] } := by
  unfold feedChunk
  exact foldl_lineStep_leftover_set mp pm _ st _

/-- Feeding two chunks in sequence is the same as feeding their concatenation:
the leftover buffer re-synchronizes the line splitting. -/
theorem feedChunk_append (mp : Int) (pm : Int → Option String) (st : ScanState)
    (c1 c2 : List Char) :
    feedChunk mp pm (feedChunk mp pm st c1) c2 = feedChunk mp pm st (c1 ++ c2) := by
  have hL2ne := splitCRLF_ne_nil
    (((splitCRLF (st.leftover ++ c1)).getLastD []) ++ c2)
  rw [feedChunk_as_fold mp pm (feedChunk mp pm st c1) c2, feedChunk_leftover,
    feedChunk_as_fold mp pm st c1, foldl_lineStep_leftover_set,
    feedChunk_as_fold mp pm st (c1 ++ c2),
    show st.leftover ++ (c1 ++ c2) = (st.leftover ++ c1) ++ c2 from
      (List.append_assoc _ _ _).symm,
    splitCRLF_append (st.leftover ++ c1) c2,
    dropLast_append_ne hL2ne, getLastD_append_ne hL2ne, List.foldl_append]

theorem feedChunk_noNL_leftover (mp : Int) (pm : Int → Option String) (st : ScanState)
    (c : List Char) :
    splitCRLF (feedChunk mp pm st c).leftover = [(feedChunk mp pm st c).leftover] := by
  rw [feedChunk_leftover]
  exact splitCRLF_noNL (splitCRLF_getLastD_noNL (st.leftover ++ c))

theorem foldl_feedChunk_join (mp : Int) (pm : Int → Option String) :
    ∀ (chunks : List (List Char)) (st : ScanState),
      splitCRLF st.leftover = [st.leftover] →
      chunks.foldl (feedChunk mp pm) st = feedChunk mp pm st chunks.flatten
  | [], st, hinv => by
    simp only [List.foldl_nil, List.flatten_nil]
    unfold feedChunk
    rw [List.append_nil, hinv]
    rfl
  | c :: cs, st, hinv => by
    rw [List.foldl_cons, List.flatten_cons, ← feedChunk_append]
    exact foldl_feedChunk_join mp pm cs (feedChunk mp pm st c)
      (feedChunk_noNL_leftover mp pm st c)

theorem string_foldl_append_data :
    ∀ (l : List String) (s : String),
      (l.foldl (fun r t => r ++ t) s).data = s.data ++ (l.map String.data).flatten
  | [], s => by simp
  | t :: l, s => by
    rw [List.foldl_cons, string_foldl_append_data l (s ++ t)]
    simp [String.data_append]

theorem string_join_data (l : List String) :
    (String.join l).data = (l.map String.data).flatten := by
  unfold String.join
  rw [string_foldl_append_data]
  rfl

/-- C1: the records (and even the progress events) resolved by `scanPorts` do
not depend on how the subprocess output text was partitioned into chunks:
any chunking gives the result of the whole text delivered as one chunk. -/
theorem c1_chunking_invariant (mp : Int) (pm : Int → Option String) (chunks : List String) :
    scanPortsRun mp pm chunks = scanPortsRun mp pm [String.join chunks] := by
  simp only [scanPortsRun]
  congr 1
  rw [List.foldl_cons, List.foldl_nil]
  have h1 : chunks.foldl (fun s c => feedChunk (clampMaxPort mp) pm s c.data) initState
      = (chunks.map String.data).foldl (feedChunk (clampMaxPort mp) pm) initState := by
    rw [List.foldl_map]
  rw [h1, foldl_feedChunk_join (clampMaxPort mp) pm (chunks.map String.data) initState rfl,
    ← string_join_data]

/-! ## Claim theorems: concrete evaluations -/

/-- C2: `parseWindowsNetstat` maps the single input line
`"  TCP    0.0.0.0:135            0.0.0.0:0              LISTENING       900"`
to exactly one record with protocol TCP, localAddress `0.0.0.0`, localPort 135,
remoteAddress `0.0.0.0`, remotePort 0, state `LISTENING`, pid 900, and
processName/owner left null. -/
theorem c2_netstat_example_line :
    parseWindowsNetstat "  TCP    0.0.0.0:135            0.0.0.0:0              LISTENING       900" =
    [{ key := "TCP|0.0.0.0:135|0.0.0.0:0|900", protocol := "TCP",
       localAddress := "0.0.0.0", localPort := some 135,
       remoteAddress := "0.0.0.0", remotePort := some 0,
       state := "LISTENING", pid := some 900, processName := none, owner := none }] := by
  decide

/-- C3 counterexample: a TCP netstat line with French state `ÉTABLIE` does NOT
produce the same record as the identical line with `ESTABLISHED` —
`parseWindowsNetstat` has no `ÉTABLIE → ESTABLISHED` rule. -/
theorem c3_etablie_differs_from_established :
    parseWindowsNetstat "  TCP    1.2.3.4:80   5.6.7.8:9   ÉTABLIE   42" ≠
    parseWindowsNetstat "  TCP    1.2.3.4:80   5.6.7.8:9   ESTABLISHED   42" := by
  decide

/-- C3 amended: the French normalization of `parseWindowsNetstat` covers only
the patterns whose word boundaries can match — `ECOUTE → LISTENING` and
`FERMÉE/FERMEE → CLOSED` — so a line with state `ECOUTE` parses to exactly the
record of the English `LISTENING` line; `ÉTABLIE` has no rule at all and is kept
verbatim (uppercased), and `ÉCOUTE` with its accented initial is also kept
verbatim because `\bÉCOUTE\b` cannot match after a space (É is not a word
character). -/
theorem c3_french_normalization_partial :
    parseWindowsNetstat "  TCP    1.2.3.4:80   5.6.7.8:9   ECOUTE   42" =
      parseWindowsNetstat "  TCP    1.2.3.4:80   5.6.7.8:9   LISTENING   42" ∧
    (parseWindowsNetstat "  TCP    1.2.3.4:80   5.6.7.8:9   FERMÉE   42").map ConnRecord.state =
      ["CLOSED"] ∧
    (parseWindowsNetstat "  TCP    1.2.3.4:80   5.6.7.8:9   ÉTABLIE   42").map ConnRecord.state =
      ["ÉTABLIE"] ∧
    (parseWindowsNetstat "  TCP    1.2.3.4:80   5.6.7.8:9   ÉCOUTE   42").map ConnRecord.state =
      ["ÉCOUTE"] := by
  decide

/-- C4 counterexample: a netstat line whose local address token carries the
five-digit port 99999 yields a record whose present localPort is 99999, outside
[0, 65535] — the extractors do not enforce the range. -/
theorem c4_port_range_not_enforced :
    (parseWindowsNetstat "  TCP    0.0.0.0:99999            0.0.0.0:0              LISTENING       900").map
      ConnRecord.localPort = [some 99999] ∧ ¬ ((99999 : ℚ) ≤ 65535) := by
  decide

/-- C7 counterexample: the streaming scan engine records UDP entries with state
equal to the empty string, not `UNSPECIFIED`. -/
theorem c7_scan_udp_state_empty :
    ((scanPortsRun 65535 noPids ["UDP 0.0.0.0:68 *:* 99\n"]).1).map
      (fun r => (r.protocol, r.state)) = [("UDP", "")] ∧
    ("" : String) ≠ "UNSPECIFIED" := by
  decide

/-- C8 counterexample: `"host:"` contains exactly one colon and its post-colon
substring is empty, yet `splitHostPort` returns port 0 (JS `Number('') = 0`),
not an absent port. -/
theorem c8_empty_port_yields_zero :
    firstIdxOf ':' "host:".data = some 4 ∧ lastIdxOf ':' "host:".data = some 4 ∧
    (splitHostPort "host:").port = some 0 := by
  decide

/-- C10: the Linux owner resolver is broken by the doubly-escaped regexes in
`lib/owners.js`.  For pid 1234 whose status file matches the spec's pattern
`Uid:\s+(\d+)` with uid 1000, and whose uid 1000 maps to `alice` in the account
database, `pidToUid` nevertheless returns null (its written pattern
`/^Uid:\\s+(\\d+)/m` only matches literal backslash sequences) and
`ownersLinux` returns the empty mapping instead of `1234 ↦ alice`. -/
theorem c10_linux_owner_resolver_broken :
    specUidOf statusEx = some 1000 ∧
    specUidNameMap passwdEx 1000 = some "alice" ∧
    pidToUid (statusOfEx 1234) = none ∧
    ownersLinux passwdEx ["1234"] statusOfEx = [] := by
  decide

end NetScan
